import Mathlib

set_option maxHeartbeats 1000000

/-! Shallow embedding of the scratch neural-network training engine
(the `NeuralNetwork` class of `src/lib/neural-network.ts`) and of the
simplified worker copy (`ManualNetwork` of `src/workers/training.worker.ts`).
JavaScript number arithmetic is modelled over `ℚ`; `Math.tanh`, the
exp-based sigmoid and `Math.sqrt` are irrational-valued, so they enter the
model as parameters (`ActivationEnv`, `RandomModel`) and every theorem below
is uniform in those parameters.  JavaScript out-of-range array reads (which
yield `undefined`, turning arithmetic into `NaN`) are modelled by
`getD`-style defaults; such reads are unreachable from the public API, as
the shape invariant proved below shows. -/

inductive ActivationFunction where
  | tanh | relu | sigmoid | linear
  deriving DecidableEq

structure ActivationImpl where
  fn : ℚ → ℚ
  derivative : ℚ → ℚ

def relu (x : ℚ) : ℚ := max 0 x

def reluDerivative (x : ℚ) : ℚ := if 0 < x then 1 else 0

def linear (x : ℚ) : ℚ := x

def linearDerivative (_x : ℚ) : ℚ := 1

/-- Math.tanh and the clamped exp-based sigmoid take irrational values, so
the model receives their implementations (value and paired derivative) as
parameters. -/
structure ActivationEnv where
  tanh : ActivationImpl
  sigmoid : ActivationImpl

def getActivation (env : ActivationEnv) : ActivationFunction → ActivationImpl
  | .tanh => env.tanh
  | .relu => ⟨relu, reluDerivative⟩
  | .sigmoid => env.sigmoid
  | .linear => ⟨linear, linearDerivative⟩

/-- Inner reduction of `matVecMul`: `row.reduce((sum, w, i) => sum + w * vec[i], 0)`.
The JS reduce adds left-to-right; addition order is immaterial over ℚ. -/
def rowDot : List ℚ → List ℚ → ℚ
  | [], _ => 0
  | w :: ws, vec => w * vec.headD 0 + rowDot ws vec.tail

def matVecMul (matrix : List (List ℚ)) (vec : List ℚ) : List ℚ :=
  matrix.map (fun row => rowDot row vec)

/-- The PRNG and `Math.sqrt`, abstracted: `random i r c` is the draw consumed
for layer `i`, row `r`, column `c` during initialization (the source draws
sequentially from the global PRNG; only the shapes of the tensors matter to
the claims, never the drawn values). -/
structure RandomModel where
  random : ℕ → ℕ → ℕ → ℚ
  sqrt : ℚ → ℚ

/-- Xavier/Glorot init: entry `(rand*2 - 1) * sqrt(6/(rows+cols))`. -/
def initializeWeights (rand : ℕ → ℕ → ℚ) (sqrtFn : ℚ → ℚ) (rows cols : ℕ) :
    List (List ℚ) :=
  let limit := sqrtFn (6 / ((rows : ℚ) + (cols : ℚ)))
  (List.range rows).map fun i => (List.range cols).map fun j =>
    (rand i j * 2 - 1) * limit

def initializeBiases (size : ℕ) : List ℚ := List.replicate size 0

structure NetworkConfig where
  hiddenLayers : List ℤ
  hiddenActivation : ActivationFunction
  outputActivation : ActivationFunction
  learningRate : ℚ
  momentum : ℚ
  deriving DecidableEq

/-- The constructor argument `Partial<NetworkConfig>`: every field optional. -/
structure NetworkConfigInput where
  hiddenLayers : Option (List ℤ) := none
  hiddenActivation : Option ActivationFunction := none
  outputActivation : Option ActivationFunction := none
  learningRate : Option ℚ := none
  momentum : Option ℚ := none
  deriving DecidableEq

/-- JavaScript `a || b` for a numeric field: a present number is falsy
exactly when it is 0 (ℚ has no NaN). -/
def orNum (a : Option ℚ) (b : ℚ) : ℚ :=
  match a with
  | none => b
  | some v => if v = 0 then b else v

/-- JavaScript `a || b` for an array- or enum-valued field: arrays and the
activation-name strings are always truthy, so only a missing field falls
back to the default. -/
def orVal {α : Type} (a : Option α) (b : α) : α := a.getD b

def resolveConfig (config : NetworkConfigInput) : NetworkConfig where
  hiddenLayers := orVal config.hiddenLayers [8, 8]
  hiddenActivation := orVal config.hiddenActivation .tanh
  outputActivation := orVal config.outputActivation .linear
  learningRate := orNum config.learningRate (1 / 100)
  momentum := orNum config.momentum 0

structure NeuralNetwork where
  weights : List (List (List ℚ))
  biases : List (List ℚ)
  vWeights : List (List (List ℚ))
  vBiases : List (List ℚ)
  layerInputs : List (List ℚ)
  layerZ : List (List ℚ)
  layerA : List (List ℚ)
  config : NetworkConfig
  epoch : ℕ
  deriving DecidableEq

/-- `initializeNetwork`: parameter tensors for architecture
`[1, ...hiddenLayers, 1]`.  A non-positive size makes the JS `for` loops run
zero times, hence `Int.toNat`. -/
def initializeNetwork (cfg : NetworkConfig) (rm : RandomModel) :
    List (List (List ℚ)) × List (List ℚ) × List (List (List ℚ)) × List (List ℚ) :=
  let layers : List ℤ := 1 :: cfg.hiddenLayers ++ [1]
  let idx := List.range (layers.length - 1)
  ( idx.map (fun i => initializeWeights (rm.random i) rm.sqrt
      (layers.getD (i + 1) 0).toNat (layers.getD i 0).toNat),
    idx.map (fun i => initializeBiases (layers.getD (i + 1) 0).toNat),
    idx.map (fun i => List.replicate (layers.getD (i + 1) 0).toNat
      (List.replicate (layers.getD i 0).toNat 0)),
    idx.map (fun i => List.replicate (layers.getD (i + 1) 0).toNat (0 : ℚ)) )

def createNetwork (config : NetworkConfigInput) (rm : RandomModel) : NeuralNetwork :=
  let cfg := resolveConfig config
  let p := initializeNetwork cfg rm
  { weights := p.1
    biases := p.2.1
    vWeights := p.2.2.1
    vBiases := p.2.2.2
    layerInputs := []
    layerZ := []
    layerA := []
    config := cfg
    epoch := 0 }

/-- `matVecMul(...).map((v, j) => v + biases[j])`. -/
def addVec : List ℚ → List ℚ → List ℚ
  | [], _ => []
  | v :: vs, b => (v + b.headD 0) :: addVec vs b.tail

/-- The layer loop of `forward`, returning (inputs pushed for later layers,
layerZ, layerA).  The output activation is used exactly on the last layer. -/
def forwardLayers (env : ActivationEnv) (cfg : NetworkConfig) :
    List (List (List ℚ) × List ℚ) → List ℚ →
    List (List ℚ) × List (List ℚ) × List (List ℚ)
  | [], _ => ([], [], [])
  | (w, b) :: rest, cur =>
    let z := addVec (matVecMul w cur) b
    let actName := if rest.isEmpty then cfg.outputActivation else cfg.hiddenActivation
    let a := z.map (getActivation env actName).fn
    let r := forwardLayers env cfg rest a
    (if rest.isEmpty then r.1 else a :: r.1, z :: r.2.1, a :: r.2.2)

def forward (env : ActivationEnv) (net : NeuralNetwork) (x : ℚ) :
    NeuralNetwork × ℚ :=
  let r := forwardLayers env net.config (net.weights.zip net.biases) [x]
  let net1 := { net with layerInputs := [x] :: r.1, layerZ := r.2.1, layerA := r.2.2 }
  (net1, (net1.layerA.getD (net1.layerA.length - 1) []).getD 0 0)

/-- The inner `k` loop `dL_da[k] += nextWeights[j][k] * nextDz[j]` for one
row of the next layer. -/
def addRowScaled : List ℚ → List ℚ → ℚ → List ℚ
  | acc, [], _ => acc
  | [], _ :: _, _ => []
  | a :: as, w :: ws, c => (a + w * c) :: addRowScaled as ws c

/-- The `j`/`k` double loop building `dL_da` from `W[i+1]` and `dL_dz[i+1]`:
row `j` is scaled by `dL_dz[i+1][j]` and accumulated. -/
def accumBack : List (List ℚ) → List ℚ → List ℚ → List ℚ
  | [], _, acc => acc
  | row :: rows, dz, acc => accumBack rows dz.tail (addRowScaled acc row (dz.headD 0))

/-- `dL_da.map((v, j) => v * hiddenDeriv(layerZ[i][j]))`. -/
def mulDeriv (d : ℚ → ℚ) : List ℚ → List ℚ → List ℚ
  | [], _ => []
  | v :: vs, z => v * d (z.headD 0) :: mulDeriv d vs z.tail

/-- The backward `for (i = numLayers - 2; i >= 0; i--)` delta loop; fuel
`i + 1` processes loop index `i`, and `acc` holds `dL_dz[i+1 ..]`. -/
def backDeltas (d : ℚ → ℚ) (weights : List (List (List ℚ)))
    (layerZ layerA : List (List ℚ)) : ℕ → List (List ℚ) → List (List ℚ)
  | 0, acc => acc
  | i + 1, acc =>
    let dLda := accumBack (weights.getD (i + 1) []) (acc.headD [])
      (List.replicate (layerA.getD i []).length 0)
    let dz := mulDeriv d dLda (layerZ.getD i [])
    backDeltas d weights layerZ layerA i (dz :: acc)

/-- One row of the weight/velocity update: for each column `k`,
`grad = dz[j] * input[k]`, `v' = momentum*v + lr*grad`, `w' = w - v'`. -/
def updateWeightRow (lr m dzj : ℚ) : List ℚ → List ℚ → List ℚ → List ℚ × List ℚ
  | [], _, _ => ([], [])
  | w :: ws, vs, input =>
    let grad := dzj * input.headD 0
    let v1 := m * vs.headD 0 + lr * grad
    let r := updateWeightRow lr m dzj ws vs.tail input.tail
    ((w - v1) :: r.1, v1 :: r.2)

/-- The `j` loop over a layer's rows, updating weights, weight velocities,
biases and bias velocities. -/
def updateLayer (lr m : ℚ) (input : List ℚ) :
    List (List ℚ) → List (List ℚ) → List ℚ → List ℚ → List ℚ →
    List (List ℚ) × List (List ℚ) × List ℚ × List ℚ
  | [], _, _, _, _ => ([], [], [], [])
  | wRow :: wRows, vRows, bs, vbs, dz =>
    let dzj := dz.headD 0
    let rw := updateWeightRow lr m dzj wRow (vRows.headD []) input
    let vb1 := m * vbs.headD 0 + lr * dzj
    let b1 := bs.headD 0 - vb1
    let r := updateLayer lr m input wRows vRows.tail bs.tail vbs.tail dz.tail
    (rw.1 :: r.1, rw.2 :: r.2.1, b1 :: r.2.2.1, vb1 :: r.2.2.2)

/-- The outer `i` loop of the update phase of `backward`. -/
def updateLayers (lr m : ℚ) :
    List (List (List ℚ)) → List (List (List ℚ)) → List (List ℚ) → List (List ℚ) →
    List (List ℚ) → List (List ℚ) →
    List (List (List ℚ)) × List (List (List ℚ)) × List (List ℚ) × List (List ℚ)
  | [], _, _, _, _, _ => ([], [], [], [])
  | w :: ws, vws, bs, vbs, inputs, dzs =>
    let r1 := updateLayer lr m (inputs.headD []) w (vws.headD []) (bs.headD [])
      (vbs.headD []) (dzs.headD [])
    let r := updateLayers lr m ws vws.tail bs.tail vbs.tail inputs.tail dzs.tail
    (r1.1 :: r.1, r1.2.1 :: r.2.1, r1.2.2.1 :: r.2.2.1, r1.2.2.2 :: r.2.2.2)

/-- `backward(yTrue)`.  Reading `layerA[numLayers-1][0]` (line 262) or
`layerZ[numLayers-1][0]` (line 267) on an absent cache row is a JS
`TypeError` (property access on `undefined`), modelled as `none`; no
parameter is mutated in that case. -/
def backward (env : ActivationEnv) (net : NeuralNetwork) (yTrue : ℚ) :
    Option NeuralNetwork :=
  let numLayers := net.weights.length
  match net.layerA.get? (numLayers - 1), net.layerZ.get? (numLayers - 1) with
  | some lastA, some lastZ =>
    let yPred := lastA.getD 0 0
    let dLdaLast := 2 * (yPred - yTrue)
    let outputDeriv := (getActivation env net.config.outputActivation).derivative
    let dzLast := [dLdaLast * outputDeriv (lastZ.getD 0 0)]
    let hiddenDeriv := (getActivation env net.config.hiddenActivation).derivative
    let dzs := backDeltas hiddenDeriv net.weights net.layerZ net.layerA
      (numLayers - 1) [dzLast]
    let u := updateLayers net.config.learningRate net.config.momentum net.weights
      net.vWeights net.biases net.vBiases net.layerInputs dzs
    some { net with
            weights := u.1
            vWeights := u.2.1
            biases := u.2.2.1
            vBiases := u.2.2.2 }
  | _, _ => none

/-- In-place swap `[a[i], a[j]] = [a[j], a[i]]`. -/
def swapAt (a : List ℕ) (i j : ℕ) : List ℕ :=
  (a.set i (a.getD j 0)).set j (a.getD i 0)

/-- Loop indices `n-1, n-2, ..., 1` of the Fisher–Yates shuffle loop. -/
def descRange (n : ℕ) : List ℕ := ((List.range n).reverse).dropLast

/-- `Math.floor(Math.random() * (i + 1))`, with `r i` the draw consumed at
loop index `i` of this call. -/
def drawAt (r : ℕ → ℚ) (i : ℕ) : ℕ := (⌊r i * ((i : ℚ) + 1)⌋).toNat

def shuffledIndices (r : ℕ → ℚ) (n : ℕ) : List ℕ :=
  (descRange n).foldl (fun a i => swapAt a i (drawAt r i)) (List.range n)

/-- Loop body of `trainEpoch`: forward, accumulate squared error, backward. -/
def sampleStep (env : ActivationEnv) (X Y : List ℚ) (acc : NeuralNetwork × ℚ)
    (i : ℕ) : Option (NeuralNetwork × ℚ) :=
  let f := forward env acc.1 (X.getD i 0)
  match backward env f.1 (Y.getD i 0) with
  | some n2 => some (n2, acc.2 + (f.2 - Y.getD i 0) ^ 2)
  | none => none

def trainEpoch (env : ActivationEnv) (net : NeuralNetwork) (X Y : List ℚ)
    (r : ℕ → ℚ) : Option (NeuralNetwork × ℚ) :=
  match (shuffledIndices r X.length).foldlM (sampleStep env X Y) (net, 0) with
  | some p => some ({ p.1 with epoch := p.1.epoch + 1 }, p.2 / (X.length : ℚ))
  | none => none

def setLearningRate (net : NeuralNetwork) (lr : ℚ) : NeuralNetwork :=
  { net with config := { net.config with learningRate := lr } }

def setMomentum (net : NeuralNetwork) (m : ℚ) : NeuralNetwork :=
  { net with config := { net.config with momentum := m } }

def reset (net : NeuralNetwork) (rm : RandomModel) : NeuralNetwork :=
  let p := initializeNetwork net.config rm
  { net with
    weights := p.1
    biases := p.2.1
    vWeights := p.2.2.1
    vBiases := p.2.2.2
    epoch := 0
    layerInputs := []
    layerZ := []
    layerA := [] }

/-- `{...this.config, ...config}`: spread overrides with every present field
(truthiness is not tested here, unlike the constructor). -/
def mergeConfig (old : NetworkConfig) (c : NetworkConfigInput) : NetworkConfig where
  hiddenLayers := c.hiddenLayers.getD old.hiddenLayers
  hiddenActivation := c.hiddenActivation.getD old.hiddenActivation
  outputActivation := c.outputActivation.getD old.outputActivation
  learningRate := c.learningRate.getD old.learningRate
  momentum := c.momentum.getD old.momentum

def reconfigure (net : NeuralNetwork) (c : NetworkConfigInput) (rm : RandomModel) :
    NeuralNetwork :=
  let cfg := mergeConfig net.config c
  let p := initializeNetwork cfg rm
  { net with
    config := cfg
    weights := p.1
    biases := p.2.1
    vWeights := p.2.2.1
    vBiases := p.2.2.2
    epoch := 0
    layerInputs := []
    layerZ := []
    layerA := [] }

/-- Layer widths `[n0, ..., nL]` of the architecture `[1, ...hiddenLayers, 1]`
(non-positive configured sizes behave as width 0). -/
def archSizes (cfg : NetworkConfig) : List ℕ :=
  ((1 : ℤ) :: cfg.hiddenLayers ++ [1]).map Int.toNat

def shapedMatrix (m : List (List ℚ)) (rows cols : ℕ) : Bool :=
  m.length == rows && m.all (fun row => row.length == cols)

/-- The shape invariant: for every computed layer `l`, the weight matrix has
`n_l` rows of length `n_{l-1}`, the bias vector has length `n_l`, and the
momentum buffers have the same shapes as their parameters. -/
def wellShaped (net : NeuralNetwork) : Bool :=
  let arch := archSizes net.config
  net.weights.length == arch.length - 1 &&
  net.biases.length == arch.length - 1 &&
  net.vWeights.length == arch.length - 1 &&
  net.vBiases.length == arch.length - 1 &&
  (List.range (arch.length - 1)).all (fun i =>
    shapedMatrix (net.weights.getD i []) (arch.getD (i + 1) 0) (arch.getD i 0) &&
    (net.biases.getD i []).length == arch.getD (i + 1) 0 &&
    shapedMatrix (net.vWeights.getD i []) (arch.getD (i + 1) 0) (arch.getD i 0) &&
    (net.vBiases.getD i []).length == arch.getD (i + 1) 0)

/-! ### The worker's simplified engine copy (`ManualNetwork`) -/

structure ManualNetwork where
  weights : List (List (List ℚ))
  biases : List (List ℚ)
  velocityW : List (List (List ℚ))
  velocityB : List (List ℚ)
  config : NetworkConfig
  epoch : ℕ
  deriving DecidableEq

/-- The worker's own activation table (its sigmoid is unclamped; both
transcendental entries are the abstract environment implementations). -/
def workerActivation (env : ActivationEnv) : ActivationFunction → ActivationImpl
  | .tanh => env.tanh
  | .relu => ⟨relu, reluDerivative⟩
  | .sigmoid => env.sigmoid
  | .linear => ⟨linear, linearDerivative⟩

/-- Pre-activations of one worker layer: `sum = biases[l][j] + Σ_i current[i]·w[j][i]`. -/
def workerPre : List (List ℚ) → List ℚ → List ℚ → List ℚ
  | [], _, _ => []
  | row :: rows, bs, cur => (bs.headD 0 + rowDot row cur) :: workerPre rows bs.tail cur

def workerForwardLayers (env : ActivationEnv) (cfg : NetworkConfig) :
    List (List (List ℚ) × List ℚ) → List ℚ → List (List ℚ) × List (List ℚ)
  | [], _ => ([], [])
  | (w, b) :: rest, cur =>
    let actFn := (workerActivation env
      (if rest.isEmpty then cfg.outputActivation else cfg.hiddenActivation)).fn
    let pre := workerPre w b cur
    let post := pre.map actFn
    let r := workerForwardLayers env cfg rest post
    (pre :: r.1, post :: r.2)

/-- The worker's `forward`: pre- and post-activation traces, both including
the raw input at position 0. -/
def workerForward (env : ActivationEnv) (net : ManualNetwork) (input : List ℚ) :
    List (List ℚ) × List (List ℚ) :=
  let r := workerForwardLayers env net.config (net.weights.zip net.biases) input
  (input :: r.1, input :: r.2)

/-- Column j of `W^T · dz`: `Σ_k dz[k] · W[k][j]` (the worker's inner `k`
loop computes exactly this sum). -/
def colSum (j : ℕ) : List (List ℚ) → List ℚ → ℚ
  | [], _ => 0
  | row :: rows, dz => row.getD j 0 * dz.headD 0 + colSum j rows dz.tail

/-- The worker's hidden-delta loop (`l` from `weights.length - 2` down to 0);
fuel `l + 1` processes loop index `l`, `acc` holds the deltas already built. -/
def workerDeltas (d : ℚ → ℚ) (weights : List (List (List ℚ)))
    (pres : List (List ℚ)) : ℕ → List (List ℚ) → List (List ℚ)
  | 0, acc => acc
  | l + 1, acc =>
    let layerDelta := (List.range (weights.getD l []).length).map fun j =>
      colSum j (weights.getD (l + 1) []) (acc.headD []) *
        d ((pres.getD (l + 1) []).getD j 0)
    workerDeltas d weights pres l (layerDelta :: acc)

/-- Worker weight update row: `v' = momentum·v - lr·grad`, `w' = w + v'`
(the sign-flipped but equivalent formulation of the main engine's rule). -/
def workerUpdateRow (lr m dzj : ℚ) : List ℚ → List ℚ → List ℚ → List ℚ × List ℚ
  | [], _, _ => ([], [])
  | w :: ws, vs, input =>
    let grad := dzj * input.headD 0
    let v1 := m * vs.headD 0 - lr * grad
    let r := workerUpdateRow lr m dzj ws vs.tail input.tail
    ((w + v1) :: r.1, v1 :: r.2)

def workerUpdateLayer (lr m : ℚ) (input : List ℚ) :
    List (List ℚ) → List (List ℚ) → List ℚ → List ℚ → List ℚ →
    List (List ℚ) × List (List ℚ) × List ℚ × List ℚ
  | [], _, _, _, _ => ([], [], [], [])
  | wRow :: wRows, vRows, bs, vbs, dz =>
    let dzj := dz.headD 0
    let rw := workerUpdateRow lr m dzj wRow (vRows.headD []) input
    let vb1 := m * vbs.headD 0 - lr * dzj
    let b1 := bs.headD 0 + vb1
    let r := workerUpdateLayer lr m input wRows vRows.tail bs.tail vbs.tail dz.tail
    (rw.1 :: r.1, rw.2 :: r.2.1, b1 :: r.2.2.1, vb1 :: r.2.2.2)

def workerUpdateLayers (lr m : ℚ) :
    List (List (List ℚ)) → List (List (List ℚ)) → List (List ℚ) → List (List ℚ) →
    List (List ℚ) → List (List ℚ) →
    List (List (List ℚ)) × List (List (List ℚ)) × List (List ℚ) × List (List ℚ)
  | [], _, _, _, _, _ => ([], [], [], [])
  | w :: ws, vws, bs, vbs, inputs, dzs =>
    let r1 := workerUpdateLayer lr m (inputs.headD []) w (vws.headD [])
      (bs.headD []) (vbs.headD []) (dzs.headD [])
    let r := workerUpdateLayers lr m ws vws.tail bs.tail vbs.tail inputs.tail dzs.tail
    (r1.1 :: r.1, r1.2.1 :: r.2.1, r1.2.2.1 :: r.2.2.1, r1.2.2.2 :: r.2.2.2)

/-- One sample of the worker's `trainEpoch` body: forward, inline backprop,
update; returns the updated network and the squared error of the pre-update
prediction. -/
def workerSampleStep (env : ActivationEnv) (net : ManualNetwork) (x y : ℚ) :
    ManualNetwork × ℚ :=
  let f := workerForward env net [x]
  let output := (f.2.getD (f.2.length - 1) []).getD 0 0
  let error := output - y
  let outputDelta := [error *
    (workerActivation env net.config.outputActivation).derivative
      ((f.1.getD (f.1.length - 1) []).getD 0 0)]
  let deltas := workerDeltas
    ((workerActivation env net.config.hiddenActivation).derivative)
    net.weights f.1 (net.weights.length - 1) [outputDelta]
  let u := workerUpdateLayers net.config.learningRate net.config.momentum
    net.weights net.velocityW net.biases net.velocityB f.2 deltas
  ({ net with
      weights := u.1
      velocityW := u.2.1
      biases := u.2.2.1
      velocityB := u.2.2.2 }, error ^ 2)

/-- Process the samples of one worker epoch in the given index order,
accumulating the squared errors. -/
def workerProcess (env : ActivationEnv) (X Y : List ℚ) :
    ManualNetwork → List ℕ → ManualNetwork × ℚ
  | net, [] => (net, 0)
  | net, s :: rest =>
    let r := workerSampleStep env net (X.getD s 0) (Y.getD s 0)
    let r2 := workerProcess env X Y r.1 rest
    (r2.1, r.2 + r2.2)

/-- The worker's `trainEpoch`: `for (let s = 0; s < X.length; s++)` — the
samples are visited in the fixed input order `0, 1, ..., n-1`; the function
consumes no randomness at all. -/
def workerTrainEpoch (env : ActivationEnv) (net : ManualNetwork) (X Y : List ℚ) :
    ManualNetwork × ℚ :=
  let r := workerProcess env X Y net (List.range X.length)
  ({ r.1 with epoch := r.1.epoch + 1 }, r.2 / (X.length : ℚ))

/-! ### Reference (specification-side) definitions -/

/-- Plain SGD, implemented separately for the momentum = 0 comparison. -/
def sgdStep (lr p g : ℚ) : ℚ := p - lr * g

/-- `W^T · dz` as a vector of the given width. -/
def transMulSpec (w : List (List ℚ)) (dz : List ℚ) (len : ℕ) : List ℚ :=
  (List.range len).map fun k => colSum k w dz

def specDeltasAux (d : ℚ → ℚ) (weights : List (List (List ℚ)))
    (layerZ layerA : List (List ℚ)) : ℕ → List (List ℚ) → List (List ℚ)
  | 0, acc => acc
  | i + 1, acc =>
    let dLda := transMulSpec (weights.getD (i + 1) []) (acc.headD [])
      (layerA.getD i []).length
    let dz := (List.range dLda.length).map fun j =>
      dLda.getD j 0 * d ((layerZ.getD i []).getD j 0)
    specDeltasAux d weights layerZ layerA i (dz :: acc)

/-- The deltas asserted by the specification: output delta
`2·(y_pred - y_true) · σ_out'(z_L)`, and hidden deltas
`(W_{l+1}^T δ_{l+1}) ⊙ σ_hidden'(z_l)`, all derivatives taken at the cached
pre-activations. -/
def specDeltas (env : ActivationEnv) (net : NeuralNetwork) (yTrue : ℚ) :
    List (List ℚ) :=
  let numLayers := net.weights.length
  let dzL := [2 * ((net.layerA.getD (numLayers - 1) []).getD 0 0 - yTrue) *
    (getActivation env net.config.outputActivation).derivative
      ((net.layerZ.getD (numLayers - 1) []).getD 0 0)]
  specDeltasAux ((getActivation env net.config.hiddenActivation).derivative)
    net.weights net.layerZ net.layerA (numLayers - 1) [dzL]

/-- Reference dot product, matrix action and affine chain, for comparing a
linear-activation forward pass with the plain matrix chain. -/
def dotRef (v w : List ℚ) : ℚ := (List.zipWith (fun a b => a * b) v w).sum

def matVecRef (w : List (List ℚ)) (v : List ℚ) : List ℚ :=
  w.map (fun row => dotRef row v)

def affineRef (w : List (List ℚ)) (b v : List ℚ) : List ℚ :=
  List.zipWith (fun a c => a + c) (matVecRef w v) b

def affineChain : List (List (List ℚ) × List ℚ) → List ℚ → List ℚ
  | [], v => v
  | (w, b) :: rest, v => affineChain rest (affineRef w b v)

/-- Shape compatibility along an affine chain starting from input width n. -/
def chainShape : List (List (List ℚ) × List ℚ) → ℕ → Bool
  | [], _ => true
  | (w, b) :: rest, n =>
    w.all (fun row => row.length == n) && (b.length == w.length) &&
      chainShape rest w.length

/-- Per-sample trace of an epoch: the final network and the list of squared
errors, each prediction taken before that sample's own parameter update. -/
def runSamples (env : ActivationEnv) (X Y : List ℚ) :
    NeuralNetwork → List ℕ → Option (NeuralNetwork × List ℚ)
  | net, [] => some (net, [])
  | net, i :: rest =>
    let f := forward env net (X.getD i 0)
    match backward env f.1 (Y.getD i 0) with
    | some n2 =>
      match runSamples env X Y n2 rest with
      | some p => some (p.1, ((f.2 - Y.getD i 0) ^ 2) :: p.2)
      | none => none
    | none => none

/-- Structural form of the Fisher–Yates loop: the draw `j` swaps the last
position with position `j`, the prefix is then shuffled recursively. -/
def fyRec : List ℕ → List ℕ → List ℕ
  | a, [] => a
  | a, j :: js =>
    fyRec ((a.set j (a.getD (a.length - 1) 0)).dropLast) js ++ [a.getD j 0]

/-- Validity of a Fisher–Yates draw vector for n elements: one draw per loop
index `i = n-1, ..., 1`, each in range `0..i`. -/
def validDraws : ℕ → List ℕ → Bool
  | n, [] => decide (n ≤ 1)
  | n, j :: js => decide (2 ≤ n) && decide (j < n) && validDraws (n - 1) js

/-- The draw vector a call to `trainEpoch` consumes. -/
def drawsOf (r : ℕ → ℚ) (n : ℕ) : List ℕ := (descRange n).map (drawAt r)

/-- A concrete activation environment, random model and networks used to
instantiate the universally quantified theorems in witnesses. -/
def idImpl : ActivationImpl := ⟨fun x => x, fun _ => 1⟩

def envId : ActivationEnv := ⟨idImpl, idImpl⟩

def rmZero : RandomModel := ⟨fun _ _ _ => 0, fun _ => 0⟩

/-- Concrete all-linear configurations of depths 1, 2 and 4 (computed
layers), used to instantiate the linear-chain theorem. -/
def cfgLin1 : NetworkConfigInput :=
  { hiddenLayers := some [], hiddenActivation := some ActivationFunction.linear, outputActivation := some ActivationFunction.linear }

def cfgLin2 : NetworkConfigInput :=
  { hiddenLayers := some [2], hiddenActivation := some ActivationFunction.linear, outputActivation := some ActivationFunction.linear }

def cfgLin4 : NetworkConfigInput :=
  { hiddenLayers := some [2, 3, 2], hiddenActivation := some ActivationFunction.linear, outputActivation := some ActivationFunction.linear }

/-- Concrete worker network for the shuffling counterexample: architecture
[1,1,1], all-linear, lr 1, momentum 0, all weights 1, biases 0. -/
def mnetCx : ManualNetwork :=
  { weights := [[[1]], [[1]]]
    biases := [[0], [0]]
    velocityW := [[[0]], [[0]]]
    velocityB := [[0], [0]]
    config := ⟨[1], .linear, .linear, 1, 0⟩
    epoch := 0 }

/-- The four updated parameter tensors computed by one backward call whose
initial cache reads returned the rows `la` (output activations) and `lz`
(output pre-activations). -/
def backwardUpdate (env : ActivationEnv) (net1 : NeuralNetwork) (y : ℚ)
    (la lz : List ℚ) :
    List (List (List ℚ)) × List (List (List ℚ)) × List (List ℚ) × List (List ℚ) :=
  updateLayers net1.config.learningRate net1.config.momentum net1.weights
    net1.vWeights net1.biases net1.vBiases net1.layerInputs
    (backDeltas ((getActivation env net1.config.hiddenActivation).derivative)
      net1.weights net1.layerZ net1.layerA (net1.weights.length - 1)
      [[2 * (la.getD 0 0 - y) *
        (getActivation env net1.config.outputActivation).derivative
          (lz.getD 0 0)]])

/-- Network states reachable through the public API: construction followed by
any sequence of forward, successful backward, successful trainEpoch, reset,
reconfigure, setLearningRate and setMomentum calls. -/
inductive Reachable : NeuralNetwork → Prop where
  | create (cfg : NetworkConfigInput) (rm : RandomModel) :
      Reachable (createNetwork cfg rm)
  | fwd (env : ActivationEnv) (net : NeuralNetwork) (x : ℚ) :
      Reachable net → Reachable (forward env net x).1
  | bwd (env : ActivationEnv) (net net2 : NeuralNetwork) (y : ℚ) :
      Reachable net → backward env net y = some net2 → Reachable net2
  | train (env : ActivationEnv) (net net2 : NeuralNetwork) (X Y : List ℚ)
      (r : ℕ → ℚ) (loss : ℚ) :
      Reachable net → trainEpoch env net X Y r = some (net2, loss) →
      Reachable net2
  | rst (net : NeuralNetwork) (rm : RandomModel) :
      Reachable net → Reachable (reset net rm)
  | reconf (net : NeuralNetwork) (cfg : NetworkConfigInput) (rm : RandomModel) :
      Reachable net → Reachable (reconfigure net cfg rm)
  | setLR (net : NeuralNetwork) (lr : ℚ) :
      Reachable net → Reachable (setLearningRate net lr)
  | setM (net : NeuralNetwork) (m : ℚ) :
      Reachable net → Reachable (setMomentum net m)

/-! ### List utilities -/

theorem headD_eq_getD {α : Type _} (l : List α) (d : α) : l.headD d = l.getD 0 d := by
  cases l <;> rfl

theorem head?_eq_getElem0 {α : Type _} (l : List α) : l.head? = l[0]? := by
  cases l <;> simp

theorem getD_tail {α : Type _} (l : List α) (n : ℕ) (d : α) :
    l.tail.getD n d = l.getD (n + 1) d := by
  cases l <;> simp [List.getD_nil, List.getD_cons_succ]

theorem getD_map_lt {α β : Type _} (f : α → β) (l : List α) (i : ℕ) (d : β) (d' : α)
    (h : i < l.length) : (l.map f).getD i d = f (l.getD i d') := by
  rw [List.getD_eq_getElem _ _ (by simpa using h), List.getD_eq_getElem _ _ h,
    List.getElem_map]

theorem getD_range_lt (n i d : ℕ) (h : i < n) : (List.range n).getD i d = i := by
  rw [List.getD_eq_getElem _ _ (by simpa using h), List.getElem_range]

theorem getD_replicate_lt {α : Type _} (a d : α) (n i : ℕ) (h : i < n) :
    (List.replicate n a).getD i d = a := by
  rw [List.getD_eq_getElem _ _ (by simpa using h), List.getElem_replicate]

/-! ### Shapes of the initialized parameter tensors -/

theorem initializeWeights_length (rand : ℕ → ℕ → ℚ) (s : ℚ → ℚ) (rows cols : ℕ) :
    (initializeWeights rand s rows cols).length = rows := by
  simp [initializeWeights]

theorem initializeWeights_rows (rand : ℕ → ℕ → ℚ) (s : ℚ → ℚ) (rows cols : ℕ) :
    ∀ row ∈ initializeWeights rand s rows cols, row.length = cols := by
  intro row hrow
  simp only [initializeWeights, List.mem_map, List.mem_range] at hrow
  obtain ⟨i, _, rfl⟩ := hrow
  simp

theorem initializeNetwork_lengths (cfg : NetworkConfig) (rm : RandomModel) :
    (initializeNetwork cfg rm).1.length
        = ((1 : ℤ) :: cfg.hiddenLayers ++ [1]).length - 1 ∧
    (initializeNetwork cfg rm).2.1.length
        = ((1 : ℤ) :: cfg.hiddenLayers ++ [1]).length - 1 ∧
    (initializeNetwork cfg rm).2.2.1.length
        = ((1 : ℤ) :: cfg.hiddenLayers ++ [1]).length - 1 ∧
    (initializeNetwork cfg rm).2.2.2.length
        = ((1 : ℤ) :: cfg.hiddenLayers ++ [1]).length - 1 := by
  simp [initializeNetwork]

theorem initializeNetwork_getD (cfg : NetworkConfig) (rm : RandomModel) (i : ℕ)
    (h : i < ((1 : ℤ) :: cfg.hiddenLayers ++ [1]).length - 1) :
    (initializeNetwork cfg rm).1.getD i []
        = initializeWeights (rm.random i) rm.sqrt
            (((1 : ℤ) :: cfg.hiddenLayers ++ [1]).getD (i + 1) 0).toNat
            (((1 : ℤ) :: cfg.hiddenLayers ++ [1]).getD i 0).toNat ∧
    (initializeNetwork cfg rm).2.1.getD i []
        = initializeBiases (((1 : ℤ) :: cfg.hiddenLayers ++ [1]).getD (i + 1) 0).toNat ∧
    (initializeNetwork cfg rm).2.2.1.getD i []
        = List.replicate (((1 : ℤ) :: cfg.hiddenLayers ++ [1]).getD (i + 1) 0).toNat
            (List.replicate (((1 : ℤ) :: cfg.hiddenLayers ++ [1]).getD i 0).toNat 0) ∧
    (initializeNetwork cfg rm).2.2.2.getD i []
        = List.replicate (((1 : ℤ) :: cfg.hiddenLayers ++ [1]).getD (i + 1) 0).toNat
            (0 : ℚ) := by
  simp only [initializeNetwork]
  refine ⟨?_, ?_, ?_, ?_⟩ <;>
    rw [getD_map_lt _ _ _ _ 0 (by simpa using h), getD_range_lt _ _ _ h]

theorem archSizes_getD (cfg : NetworkConfig) (i : ℕ)
    (h : i < ((1 : ℤ) :: cfg.hiddenLayers ++ [1]).length) :
    (archSizes cfg).getD i 0
        = (((1 : ℤ) :: cfg.hiddenLayers ++ [1]).getD i 0).toNat := by
  simp only [archSizes]
  exact getD_map_lt _ _ _ _ 0 h

theorem archSizes_length (cfg : NetworkConfig) :
    (archSizes cfg).length = cfg.hiddenLayers.length + 2 := by
  simp [archSizes]

theorem init_shapes (cfg : NetworkConfig) (rm : RandomModel)
    (lin lz la : List (List ℚ)) (e : ℕ) :
    wellShaped ⟨(initializeNetwork cfg rm).1, (initializeNetwork cfg rm).2.1,
      (initializeNetwork cfg rm).2.2.1, (initializeNetwork cfg rm).2.2.2,
      lin, lz, la, cfg, e⟩ = true := by
  have hLlen : ((1 : ℤ) :: cfg.hiddenLayers ++ [1]).length
      = cfg.hiddenLayers.length + 2 := by simp
  have hlens := initializeNetwork_lengths cfg rm
  simp only [wellShaped, Bool.and_eq_true, beq_iff_eq, List.all_eq_true,
    List.mem_range]
  refine ⟨⟨⟨⟨?_, ?_⟩, ?_⟩, ?_⟩, ?_⟩
  · rw [archSizes_length]; rw [hLlen] at hlens; exact hlens.1
  · rw [archSizes_length]; rw [hLlen] at hlens; exact hlens.2.1
  · rw [archSizes_length]; rw [hLlen] at hlens; exact hlens.2.2.1
  · rw [archSizes_length]; rw [hLlen] at hlens; exact hlens.2.2.2
  · intro i hi
    rw [archSizes_length] at hi
    have hi1 : i < ((1 : ℤ) :: cfg.hiddenLayers ++ [1]).length - 1 := by
      rw [hLlen]; omega
    have hi2 : i < ((1 : ℤ) :: cfg.hiddenLayers ++ [1]).length := by
      rw [hLlen]; omega
    have hi3 : i + 1 < ((1 : ℤ) :: cfg.hiddenLayers ++ [1]).length := by
      rw [hLlen]; omega
    obtain ⟨hw, hb, hvw, hvb⟩ := initializeNetwork_getD cfg rm i hi1
    simp only [shapedMatrix, Bool.and_eq_true, beq_iff_eq, List.all_eq_true]
    rw [hw, hb, hvw, hvb, archSizes_getD cfg i hi2, archSizes_getD cfg (i + 1) hi3]
    refine ⟨⟨⟨⟨?_, ?_⟩, ?_⟩, ⟨?_, ?_⟩⟩, ?_⟩
    · exact initializeWeights_length _ _ _ _
    · exact initializeWeights_rows _ _ _ _
    · simp [initializeBiases]
    · simp
    · intro row hrow
      rw [List.eq_of_mem_replicate hrow]
      simp
    · simp

/-! ### Claim theorems -/

/-- C10: the constructor substitutes a hard-coded default for every omitted
or falsy field (hiddenLayers [8,8], hiddenActivation tanh, outputActivation
linear, learningRate 0.01, momentum 0); in particular learningRate 0 is
replaced by 0.01 — a zero learning rate cannot be set through the
constructor — while setLearningRate(0) can set it afterwards. -/
theorem constructor_defaults (cfg : NetworkConfigInput) (rm : RandomModel) :
    (cfg.hiddenLayers = none →
      (createNetwork cfg rm).config.hiddenLayers = [8, 8]) ∧
    (cfg.hiddenActivation = none →
      (createNetwork cfg rm).config.hiddenActivation = ActivationFunction.tanh) ∧
    (cfg.outputActivation = none →
      (createNetwork cfg rm).config.outputActivation = ActivationFunction.linear) ∧
    ((cfg.learningRate = none ∨ cfg.learningRate = some 0) →
      (createNetwork cfg rm).config.learningRate = 1 / 100) ∧
    ((cfg.momentum = none ∨ cfg.momentum = some 0) →
      (createNetwork cfg rm).config.momentum = 0) ∧
    (∀ net : NeuralNetwork, (setLearningRate net 0).config.learningRate = 0) := by
  refine ⟨fun h => ?_, fun h => ?_, fun h => ?_, fun h => ?_, fun h => ?_,
    fun net => rfl⟩
  · simp [createNetwork, resolveConfig, orVal, h]
  · simp [createNetwork, resolveConfig, orVal, h]
  · simp [createNetwork, resolveConfig, orVal, h]
  · rcases h with h | h <;> simp [createNetwork, resolveConfig, orNum, h]
  · rcases h with h | h <;> simp [createNetwork, resolveConfig, orNum, h]

theorem constructor_defaults_witness :
    (createNetwork { learningRate := some 0 } rmZero).config.learningRate = 1 / 100 ∧
    (createNetwork {} rmZero).config.hiddenLayers = [8, 8] :=
  ⟨(constructor_defaults { learningRate := some 0 } rmZero).2.2.2.1 (Or.inr rfl),
   (constructor_defaults {} rmZero).1 rfl⟩

/-- C7: on a freshly created, freshly reset or freshly reconfigured network
(activation cache still empty, no forward yet), backward fails — the source
throws a TypeError on the missing cache row — and returns no updated
network, so no parameter is silently mutated. -/
theorem backward_before_forward_fails (env : ActivationEnv) (y : ℚ) :
    (∀ cfg rm, backward env (createNetwork cfg rm) y = none) ∧
    (∀ (net : NeuralNetwork) rm, backward env (reset net rm) y = none) ∧
    (∀ (net : NeuralNetwork) cfg rm,
      backward env (reconfigure net cfg rm) y = none) := by
  refine ⟨fun cfg rm => ?_, fun net rm => ?_, fun net cfg rm => ?_⟩ <;>
    simp [backward, createNetwork, reset, reconfigure]

/-- C9: forward mutates only the activation cache — weights, biases,
momentum buffers, epoch counter and configuration are unchanged — and the
returned output and refreshed cache are a deterministic function of the
weights, biases, configuration and input alone (two calls from equal
parameters and input agree). -/
theorem forward_frame (env : ActivationEnv) (net net2 : NeuralNetwork) (x : ℚ)
    (hw : net.weights = net2.weights) (hb : net.biases = net2.biases)
    (hc : net.config = net2.config) :
    ((forward env net x).1.weights = net.weights ∧
     (forward env net x).1.biases = net.biases ∧
     (forward env net x).1.vWeights = net.vWeights ∧
     (forward env net x).1.vBiases = net.vBiases ∧
     (forward env net x).1.epoch = net.epoch ∧
     (forward env net x).1.config = net.config) ∧
    ((forward env net x).2 = (forward env net2 x).2 ∧
     (forward env net x).1.layerInputs = (forward env net2 x).1.layerInputs ∧
     (forward env net x).1.layerZ = (forward env net2 x).1.layerZ ∧
     (forward env net x).1.layerA = (forward env net2 x).1.layerA) := by
  constructor
  · exact ⟨rfl, rfl, rfl, rfl, rfl, rfl⟩
  · simp [forward, hw, hb, hc]

theorem forward_frame_witness :
    (forward envId (createNetwork {} rmZero) 1).1.vWeights
      = (createNetwork {} rmZero).vWeights :=
  (forward_frame envId (createNetwork {} rmZero) (createNetwork {} rmZero) 1
    rfl rfl rfl).1.2.2.1

/-! ### Pointwise characterization of the update loops -/

theorem updateWeightRow_getD (lr m dzj : ℚ) (ws : List ℚ) :
    ∀ (vs input : List ℚ) (k : ℕ), k < ws.length →
      (updateWeightRow lr m dzj ws vs input).2.getD k 0
          = m * vs.getD k 0 + lr * (dzj * input.getD k 0) ∧
      (updateWeightRow lr m dzj ws vs input).1.getD k 0
          = ws.getD k 0 - (m * vs.getD k 0 + lr * (dzj * input.getD k 0)) := by
  induction ws with
  | nil => intro vs input k hk; simp at hk
  | cons w ws ih =>
    intro vs input k hk
    cases k with
    | zero => simp [updateWeightRow, headD_eq_getD, head?_eq_getElem0]
    | succ k =>
      have h := ih vs.tail input.tail k (by simpa using hk)
      simpa [updateWeightRow, List.getD_cons_succ, getD_tail] using h

theorem updateLayer_getD (lr m : ℚ) (input : List ℚ) (wRows : List (List ℚ)) :
    ∀ (vRows : List (List ℚ)) (bs vbs dz : List ℚ) (j : ℕ), j < wRows.length →
      (updateLayer lr m input wRows vRows bs vbs dz).1.getD j []
          = (updateWeightRow lr m (dz.getD j 0) (wRows.getD j [])
              (vRows.getD j []) input).1 ∧
      (updateLayer lr m input wRows vRows bs vbs dz).2.1.getD j []
          = (updateWeightRow lr m (dz.getD j 0) (wRows.getD j [])
              (vRows.getD j []) input).2 ∧
      (updateLayer lr m input wRows vRows bs vbs dz).2.2.2.getD j 0
          = m * vbs.getD j 0 + lr * dz.getD j 0 ∧
      (updateLayer lr m input wRows vRows bs vbs dz).2.2.1.getD j 0
          = bs.getD j 0 - (m * vbs.getD j 0 + lr * dz.getD j 0) := by
  induction wRows with
  | nil => intro vRows bs vbs dz j hj; simp at hj
  | cons wRow wRows ih =>
    intro vRows bs vbs dz j hj
    cases j with
    | zero => simp [updateLayer, headD_eq_getD, head?_eq_getElem0]
    | succ j =>
      have h := ih vRows.tail bs.tail vbs.tail dz.tail j (by simpa using hj)
      simpa [updateLayer, List.getD_cons_succ, getD_tail] using h

theorem updateLayers_getD (lr m : ℚ) (ws : List (List (List ℚ))) :
    ∀ (vws : List (List (List ℚ))) (bs vbs inputs dzs : List (List ℚ)) (i : ℕ),
      i < ws.length →
      (updateLayers lr m ws vws bs vbs inputs dzs).1.getD i []
          = (updateLayer lr m (inputs.getD i []) (ws.getD i []) (vws.getD i [])
              (bs.getD i []) (vbs.getD i []) (dzs.getD i [])).1 ∧
      (updateLayers lr m ws vws bs vbs inputs dzs).2.1.getD i []
          = (updateLayer lr m (inputs.getD i []) (ws.getD i []) (vws.getD i [])
              (bs.getD i []) (vbs.getD i []) (dzs.getD i [])).2.1 ∧
      (updateLayers lr m ws vws bs vbs inputs dzs).2.2.1.getD i []
          = (updateLayer lr m (inputs.getD i []) (ws.getD i []) (vws.getD i [])
              (bs.getD i []) (vbs.getD i []) (dzs.getD i [])).2.2.1 ∧
      (updateLayers lr m ws vws bs vbs inputs dzs).2.2.2.getD i []
          = (updateLayer lr m (inputs.getD i []) (ws.getD i []) (vws.getD i [])
              (bs.getD i []) (vbs.getD i []) (dzs.getD i [])).2.2.2 := by
  induction ws with
  | nil => intro vws bs vbs inputs dzs i hi; simp at hi
  | cons w ws ih =>
    intro vws bs vbs inputs dzs i hi
    cases i with
    | zero => simp [updateLayers, headD_eq_getD, head?_eq_getElem0]
    | succ i =>
      have h := ih vws.tail bs.tail vbs.tail inputs.tail dzs.tail i
        (by simpa using hi)
      simpa [updateLayers, List.getD_cons_succ, getD_tail] using h

/-- C2: one update step of the backward pass sets the velocity to
`v' = momentum·v + learningRate·g` and the parameter to `p' = p - v'`, for
weights (gradient `dz[j]·input[k]`) and biases (gradient `dz[j]`) alike;
when momentum = 0 the updated parameter coincides with the separately
implemented plain-SGD rule `p - learningRate·g`, for every gradient value
and every state of the velocity buffer. -/
theorem momentum_update_rule (lr m dzj : ℚ) (ws vs input : List ℚ)
    (wRows vRows : List (List ℚ)) (bs vbs dz : List ℚ) (k j : ℕ)
    (hk : k < ws.length) (hj : j < wRows.length) :
    (updateWeightRow lr m dzj ws vs input).2.getD k 0
        = m * vs.getD k 0 + lr * (dzj * input.getD k 0) ∧
    (updateWeightRow lr m dzj ws vs input).1.getD k 0
        = ws.getD k 0 - (updateWeightRow lr m dzj ws vs input).2.getD k 0 ∧
    (updateLayer lr m input wRows vRows bs vbs dz).2.2.2.getD j 0
        = m * vbs.getD j 0 + lr * dz.getD j 0 ∧
    (updateLayer lr m input wRows vRows bs vbs dz).2.2.1.getD j 0
        = bs.getD j 0
          - (updateLayer lr m input wRows vRows bs vbs dz).2.2.2.getD j 0 ∧
    (m = 0 →
      (updateWeightRow lr m dzj ws vs input).1.getD k 0
          = sgdStep lr (ws.getD k 0) (dzj * input.getD k 0) ∧
      (updateLayer lr m input wRows vRows bs vbs dz).2.2.1.getD j 0
          = sgdStep lr (bs.getD j 0) (dz.getD j 0)) := by
  obtain ⟨h1, h2⟩ := updateWeightRow_getD lr m dzj ws vs input k hk
  obtain ⟨_, _, h3, h4⟩ := updateLayer_getD lr m input wRows vRows bs vbs dz j hj
  refine ⟨h1, by rw [h1]; exact h2, h3, by rw [h3]; exact h4, fun hm => ?_⟩
  subst hm
  constructor
  · rw [h2]; simp [sgdStep]
  · rw [h4]; simp [sgdStep]

theorem momentum_update_rule_witness :
    (updateWeightRow 1 1 2 [5] [1] [3]).2.getD 0 0
      = 1 * List.getD [1] 0 0 + 1 * (2 * List.getD [3] 0 0) :=
  (momentum_update_rule 1 1 2 [5] [1] [3] [[0]] [[0]] [7] [1] [2] 0 0
    (by decide) (by decide)).1

/-! ### Lengths and entries of the update outputs -/

theorem updateWeightRow_lengths (lr m dzj : ℚ) (ws : List ℚ) :
    ∀ vs input, (updateWeightRow lr m dzj ws vs input).1.length = ws.length ∧
      (updateWeightRow lr m dzj ws vs input).2.length = ws.length := by
  induction ws with
  | nil => intro vs input; simp [updateWeightRow]
  | cons w ws ih =>
    intro vs input
    simp [updateWeightRow, (ih vs.tail input.tail).1, (ih vs.tail input.tail).2]

theorem updateLayer_lengths (lr m : ℚ) (input : List ℚ) (wRows : List (List ℚ)) :
    ∀ vRows bs vbs dz,
      (updateLayer lr m input wRows vRows bs vbs dz).1.length = wRows.length ∧
      (updateLayer lr m input wRows vRows bs vbs dz).2.1.length = wRows.length ∧
      (updateLayer lr m input wRows vRows bs vbs dz).2.2.1.length = wRows.length ∧
      (updateLayer lr m input wRows vRows bs vbs dz).2.2.2.length = wRows.length := by
  induction wRows with
  | nil => intro vRows bs vbs dz; simp [updateLayer]
  | cons wRow wRows ih =>
    intro vRows bs vbs dz
    have h := ih vRows.tail bs.tail vbs.tail dz.tail
    simp [updateLayer, h.1, h.2.1, h.2.2.1, h.2.2.2]

theorem updateLayers_lengths (lr m : ℚ) (ws : List (List (List ℚ))) :
    ∀ vws bs vbs inputs dzs,
      (updateLayers lr m ws vws bs vbs inputs dzs).1.length = ws.length ∧
      (updateLayers lr m ws vws bs vbs inputs dzs).2.1.length = ws.length ∧
      (updateLayers lr m ws vws bs vbs inputs dzs).2.2.1.length = ws.length ∧
      (updateLayers lr m ws vws bs vbs inputs dzs).2.2.2.length = ws.length := by
  induction ws with
  | nil => intro vws bs vbs inputs dzs; simp [updateLayers]
  | cons w ws ih =>
    intro vws bs vbs inputs dzs
    have h := ih vws.tail bs.tail vbs.tail inputs.tail dzs.tail
    simp [updateLayers, h.1, h.2.1, h.2.2.1, h.2.2.2]

/-! ### Unpacking and packing the shape invariant -/

theorem getD_mem {α : Type _} (l : List α) (j : ℕ) (d : α) (h : j < l.length) :
    l.getD j d ∈ l := by
  rw [List.getD_eq_getElem _ _ h]
  exact List.getElem_mem h

theorem exists_getD_of_mem {α : Type _} {l : List α} {x : α} (d : α) (hx : x ∈ l) :
    ∃ j, j < l.length ∧ l.getD j d = x := by
  obtain ⟨⟨j, hj⟩, rfl⟩ := List.mem_iff_get.mp hx
  refine ⟨j, hj, ?_⟩
  rw [List.getD_eq_getElem _ _ hj]
  simp

theorem wellShaped_unpack (net : NeuralNetwork) (h : wellShaped net = true) :
    net.weights.length = (archSizes net.config).length - 1 ∧
    net.biases.length = (archSizes net.config).length - 1 ∧
    net.vWeights.length = (archSizes net.config).length - 1 ∧
    net.vBiases.length = (archSizes net.config).length - 1 ∧
    ∀ i, i < (archSizes net.config).length - 1 →
      ((net.weights.getD i []).length = (archSizes net.config).getD (i + 1) 0 ∧
        ∀ row ∈ net.weights.getD i [],
          row.length = (archSizes net.config).getD i 0) ∧
      (net.biases.getD i []).length = (archSizes net.config).getD (i + 1) 0 ∧
      ((net.vWeights.getD i []).length = (archSizes net.config).getD (i + 1) 0 ∧
        ∀ row ∈ net.vWeights.getD i [],
          row.length = (archSizes net.config).getD i 0) ∧
      (net.vBiases.getD i []).length = (archSizes net.config).getD (i + 1) 0 := by
  simp only [wellShaped, shapedMatrix, Bool.and_eq_true, beq_iff_eq,
    List.all_eq_true, List.mem_range] at h
  obtain ⟨⟨⟨⟨h1, h2⟩, h3⟩, h4⟩, h5⟩ := h
  refine ⟨h1, h2, h3, h4, fun i hi => ?_⟩
  obtain ⟨⟨⟨⟨hw1, hw2⟩, hb⟩, hv1, hv2⟩, hvb⟩ := h5 i hi
  exact ⟨⟨hw1, fun row hr => hw2 row hr⟩, hb, ⟨hv1, fun row hr => hv2 row hr⟩, hvb⟩

theorem wellShaped_pack (net : NeuralNetwork)
    (h1 : net.weights.length = (archSizes net.config).length - 1)
    (h2 : net.biases.length = (archSizes net.config).length - 1)
    (h3 : net.vWeights.length = (archSizes net.config).length - 1)
    (h4 : net.vBiases.length = (archSizes net.config).length - 1)
    (h5 : ∀ i, i < (archSizes net.config).length - 1 →
      ((net.weights.getD i []).length = (archSizes net.config).getD (i + 1) 0 ∧
        ∀ row ∈ net.weights.getD i [],
          row.length = (archSizes net.config).getD i 0) ∧
      (net.biases.getD i []).length = (archSizes net.config).getD (i + 1) 0 ∧
      ((net.vWeights.getD i []).length = (archSizes net.config).getD (i + 1) 0 ∧
        ∀ row ∈ net.vWeights.getD i [],
          row.length = (archSizes net.config).getD i 0) ∧
      (net.vBiases.getD i []).length = (archSizes net.config).getD (i + 1) 0) :
    wellShaped net = true := by
  simp only [wellShaped, shapedMatrix, Bool.and_eq_true, beq_iff_eq,
    List.all_eq_true, List.mem_range]
  refine ⟨⟨⟨⟨h1, h2⟩, h3⟩, h4⟩, fun i hi => ?_⟩
  obtain ⟨⟨hw1, hw2⟩, hb, ⟨hv1, hv2⟩, hvb⟩ := h5 i hi
  exact ⟨⟨⟨⟨hw1, fun row hr => hw2 row hr⟩, hb⟩, hv1, fun row hr => hv2 row hr⟩, hvb⟩

/-! ### Shapes of the forward cache -/

theorem addVec_length (v : List ℚ) : ∀ b, (addVec v b).length = v.length := by
  induction v with
  | nil => intro b; simp [addVec]
  | cons x xs ih => intro b; simp [addVec, ih b.tail]

theorem matVecMul_length (m : List (List ℚ)) (v : List ℚ) :
    (matVecMul m v).length = m.length := by simp [matVecMul]

theorem forwardLayers_lengths (env : ActivationEnv) (cfg : NetworkConfig)
    (ps : List (List (List ℚ) × List ℚ)) : ∀ cur,
    (forwardLayers env cfg ps cur).2.1.length = ps.length ∧
    (forwardLayers env cfg ps cur).2.2.length = ps.length ∧
    (forwardLayers env cfg ps cur).1.length = ps.length - 1 := by
  induction ps with
  | nil => intro cur; simp [forwardLayers]
  | cons p rest ih =>
    intro cur
    obtain ⟨w, b⟩ := p
    by_cases hr : rest.isEmpty
    · obtain rfl : rest = [] := List.isEmpty_iff.mp hr
      simp [forwardLayers]
    · have hne : rest ≠ [] := by simpa [List.isEmpty_iff] using hr
      have hlen : 1 ≤ rest.length := List.length_pos.mpr hne
      have h := ih ((addVec (matVecMul w cur) b).map
        (getActivation env cfg.hiddenActivation).fn)
      simp only [forwardLayers, hr, if_false, Bool.false_eq_true]
      refine ⟨by simp [h.1], by simp [h.2.1], ?_⟩
      simp only [List.length_cons, h.2.2]
      omega

theorem forwardLayers_entry (env : ActivationEnv) (cfg : NetworkConfig)
    (ps : List (List (List ℚ) × List ℚ)) : ∀ cur i, i < ps.length →
    ((forwardLayers env cfg ps cur).2.1.getD i []).length
        = (ps.getD i ([], [])).1.length ∧
    ((forwardLayers env cfg ps cur).2.2.getD i []).length
        = (ps.getD i ([], [])).1.length := by
  induction ps with
  | nil => intro cur i hi; simp at hi
  | cons p rest ih =>
    intro cur i hi
    obtain ⟨w, b⟩ := p
    cases i with
    | zero => simp [forwardLayers, addVec_length, matVecMul_length]
    | succ i =>
      simp only [forwardLayers, List.getD_cons_succ]
      exact ih _ i (by simpa using hi)

theorem forwardLayers_inputs_entry (env : ActivationEnv) (cfg : NetworkConfig)
    (ps : List (List (List ℚ) × List ℚ)) : ∀ cur i, i < ps.length - 1 →
    (forwardLayers env cfg ps cur).1.getD i []
        = (forwardLayers env cfg ps cur).2.2.getD i [] := by
  induction ps with
  | nil => intro cur i hi; simp at hi
  | cons p rest ih =>
    intro cur i hi
    obtain ⟨w, b⟩ := p
    have hne : ¬ rest.isEmpty := by
      cases rest
      · simp at hi
      · simp
    cases i with
    | zero => simp [forwardLayers, hne]
    | succ i =>
      simp only [forwardLayers, hne, if_false, Bool.false_eq_true,
        List.getD_cons_succ]
      exact ih _ i (by simp at hi ⊢; omega)

theorem zip_getD {α β : Type _} (l : List α) : ∀ (l2 : List β) (i : ℕ) (da : α)
    (db : β), i < l.length → i < l2.length →
    (l.zip l2).getD i (da, db) = (l.getD i da, l2.getD i db) := by
  induction l with
  | nil => intro l2 i da db h1 h2; simp at h1
  | cons a l ih =>
    intro l2 i da db h1 h2
    cases l2 with
    | nil => simp at h2
    | cons b l2 =>
      cases i with
      | zero => simp
      | succ i =>
        simpa using ih l2 i da db (by simpa using h1) (by simpa using h2)

theorem zip_length_of_eq {α β : Type _} (l : List α) (l2 : List β)
    (h : l2.length = l.length) : (l.zip l2).length = l.length := by
  simp [h]

/-- The forward cache: layerZ and layerA have one entry per computed layer,
entry widths equal the layer's row count, layerInputs[0] is the raw input and
layerInputs[i+1] is layerA[i]. -/
theorem forward_cache (env : ActivationEnv) (net : NeuralNetwork) (x : ℚ)
    (hb : net.biases.length = net.weights.length) :
    (forward env net x).1.layerZ.length = net.weights.length ∧
    (forward env net x).1.layerA.length = net.weights.length ∧
    (∀ i, i < net.weights.length →
      ((forward env net x).1.layerZ.getD i []).length
          = (net.weights.getD i []).length ∧
      ((forward env net x).1.layerA.getD i []).length
          = (net.weights.getD i []).length) ∧
    (forward env net x).1.layerInputs.getD 0 [] = [x] ∧
    (∀ i, i + 1 < net.weights.length →
      (forward env net x).1.layerInputs.getD (i + 1) []
          = (forward env net x).1.layerA.getD i []) := by
  have hzip : (net.weights.zip net.biases).length = net.weights.length :=
    zip_length_of_eq _ _ hb
  have hlens := forwardLayers_lengths env net.config (net.weights.zip net.biases) [x]
  refine ⟨?_, ?_, fun i hi => ?_, ?_, fun i hi => ?_⟩
  · show (forwardLayers env net.config (net.weights.zip net.biases) [x]).2.1.length = _
    rw [hlens.1, hzip]
  · show (forwardLayers env net.config (net.weights.zip net.biases) [x]).2.2.length = _
    rw [hlens.2.1, hzip]
  · have he := forwardLayers_entry env net.config (net.weights.zip net.biases) [x] i
      (by rw [hzip]; exact hi)
    have hz := zip_getD net.weights net.biases i [] [] hi (by rw [hb]; exact hi)
    constructor
    · show ((forwardLayers env net.config (net.weights.zip net.biases) [x]).2.1.getD i []).length = _
      rw [he.1, hz]
    · show ((forwardLayers env net.config (net.weights.zip net.biases) [x]).2.2.getD i []).length = _
      rw [he.2, hz]
  · rfl
  · show ([x] :: (forwardLayers env net.config (net.weights.zip net.biases) [x]).1).getD (i + 1) [] = _
    rw [List.getD_cons_succ]
    exact forwardLayers_inputs_entry env net.config (net.weights.zip net.biases) [x] i
      (by rw [hzip]; omega)

/-- Unfolding backward when the cache rows needed by the source's first two
reads are present. -/
theorem backward_unfold (env : ActivationEnv) (net1 : NeuralNetwork) (y : ℚ)
    (la lz : List ℚ)
    (hA : net1.layerA.get? (net1.weights.length - 1) = some la)
    (hZ : net1.layerZ.get? (net1.weights.length - 1) = some lz) :
    backward env net1 y = some { net1 with
      weights := (backwardUpdate env net1 y la lz).1
      vWeights := (backwardUpdate env net1 y la lz).2.1
      biases := (backwardUpdate env net1 y la lz).2.2.1
      vBiases := (backwardUpdate env net1 y la lz).2.2.2 } := by
  simp only [backward, hA, hZ, backwardUpdate]

theorem backward_some_of_cache (env : ActivationEnv) (net1 : NeuralNetwork)
    (y : ℚ) (hA : net1.weights.length - 1 < net1.layerA.length)
    (hZ : net1.weights.length - 1 < net1.layerZ.length) :
    ∃ net2, backward env net1 y = some net2 := by
  have hA' : net1.layerA.get? (net1.weights.length - 1)
      = some (net1.layerA.get ⟨net1.weights.length - 1, hA⟩) := by
    rw [List.get?_eq_getElem?, List.getElem?_eq_getElem hA]
    simp
  have hZ' : net1.layerZ.get? (net1.weights.length - 1)
      = some (net1.layerZ.get ⟨net1.weights.length - 1, hZ⟩) := by
    rw [List.get?_eq_getElem?, List.getElem?_eq_getElem hZ]
    simp
  exact ⟨_, backward_unfold env net1 y _ _ hA' hZ'⟩

theorem backwardUpdate_lengths (env : ActivationEnv) (net1 : NeuralNetwork)
    (y : ℚ) (la lz : List ℚ) :
    (backwardUpdate env net1 y la lz).1.length = net1.weights.length ∧
    (backwardUpdate env net1 y la lz).2.1.length = net1.weights.length ∧
    (backwardUpdate env net1 y la lz).2.2.1.length = net1.weights.length ∧
    (backwardUpdate env net1 y la lz).2.2.2.length = net1.weights.length := by
  unfold backwardUpdate
  exact updateLayers_lengths _ _ _ _ _ _ _ _

theorem backwardUpdate_getD (env : ActivationEnv) (net1 : NeuralNetwork) (y : ℚ)
    (la lz : List ℚ) (i : ℕ) (hi : i < net1.weights.length) :
    (backwardUpdate env net1 y la lz).1.getD i []
        = (updateLayer net1.config.learningRate net1.config.momentum
            (net1.layerInputs.getD i []) (net1.weights.getD i [])
            (net1.vWeights.getD i []) (net1.biases.getD i [])
            (net1.vBiases.getD i [])
            ((backDeltas ((getActivation env net1.config.hiddenActivation).derivative)
              net1.weights net1.layerZ net1.layerA (net1.weights.length - 1)
              [[2 * (la.getD 0 0 - y) *
                (getActivation env net1.config.outputActivation).derivative
                  (lz.getD 0 0)]]).getD i [])).1 ∧
    (backwardUpdate env net1 y la lz).2.1.getD i []
        = (updateLayer net1.config.learningRate net1.config.momentum
            (net1.layerInputs.getD i []) (net1.weights.getD i [])
            (net1.vWeights.getD i []) (net1.biases.getD i [])
            (net1.vBiases.getD i [])
            ((backDeltas ((getActivation env net1.config.hiddenActivation).derivative)
              net1.weights net1.layerZ net1.layerA (net1.weights.length - 1)
              [[2 * (la.getD 0 0 - y) *
                (getActivation env net1.config.outputActivation).derivative
                  (lz.getD 0 0)]]).getD i [])).2.1 ∧
    (backwardUpdate env net1 y la lz).2.2.1.getD i []
        = (updateLayer net1.config.learningRate net1.config.momentum
            (net1.layerInputs.getD i []) (net1.weights.getD i [])
            (net1.vWeights.getD i []) (net1.biases.getD i [])
            (net1.vBiases.getD i [])
            ((backDeltas ((getActivation env net1.config.hiddenActivation).derivative)
              net1.weights net1.layerZ net1.layerA (net1.weights.length - 1)
              [[2 * (la.getD 0 0 - y) *
                (getActivation env net1.config.outputActivation).derivative
                  (lz.getD 0 0)]]).getD i [])).2.2.1 ∧
    (backwardUpdate env net1 y la lz).2.2.2.getD i []
        = (updateLayer net1.config.learningRate net1.config.momentum
            (net1.layerInputs.getD i []) (net1.weights.getD i [])
            (net1.vWeights.getD i []) (net1.biases.getD i [])
            (net1.vBiases.getD i [])
            ((backDeltas ((getActivation env net1.config.hiddenActivation).derivative)
              net1.weights net1.layerZ net1.layerA (net1.weights.length - 1)
              [[2 * (la.getD 0 0 - y) *
                (getActivation env net1.config.outputActivation).derivative
                  (lz.getD 0 0)]]).getD i [])).2.2.2 := by
  have h := updateLayers_getD net1.config.learningRate net1.config.momentum
    net1.weights net1.vWeights net1.biases net1.vBiases net1.layerInputs
    ((backDeltas ((getActivation env net1.config.hiddenActivation).derivative)
      net1.weights net1.layerZ net1.layerA (net1.weights.length - 1)
      [[2 * (la.getD 0 0 - y) *
        (getActivation env net1.config.outputActivation).derivative
          (lz.getD 0 0)]])) i hi
  simpa only [backwardUpdate, List.getD_eq_getElem?_getD] using h

theorem wellShaped_cache_irrelevant (net : NeuralNetwork)
    (lin lz la : List (List ℚ)) (e : ℕ) (h : wellShaped net = true) :
    wellShaped { net with layerInputs := lin, layerZ := lz, layerA := la, epoch := e } = true := h

theorem forward_preserves_shapes (env : ActivationEnv) (net : NeuralNetwork)
    (x : ℚ) (h : wellShaped net = true) :
    wellShaped (forward env net x).1 = true := h

theorem backward_preserves (env : ActivationEnv) (net1 net2 : NeuralNetwork)
    (y : ℚ) (h : wellShaped net1 = true)
    (hb : backward env net1 y = some net2) :
    wellShaped net2 = true ∧ net2.config = net1.config ∧
    net2.epoch = net1.epoch ∧ net2.weights.length = net1.weights.length := by
  rcases hA : net1.layerA.get? (net1.weights.length - 1) with _ | la
  · exfalso
    simp only [backward, hA] at hb
    exact Option.noConfusion hb
  · rcases hZ : net1.layerZ.get? (net1.weights.length - 1) with _ | lz
    · exfalso
      simp only [backward, hA, hZ] at hb
      exact Option.noConfusion hb
    · rw [backward_unfold env net1 y la lz hA hZ] at hb
      obtain rfl := Option.some.inj hb
      obtain ⟨h1, h2, h3, h4, h5⟩ := wellShaped_unpack net1 h
      have hbl := backwardUpdate_lengths env net1 y la lz
      refine ⟨?_, rfl, rfl, by rw [hbl.1]⟩
      apply wellShaped_pack
      · show (backwardUpdate env net1 y la lz).1.length = _
        rw [hbl.1]; exact h1
      · show (backwardUpdate env net1 y la lz).2.2.1.length = _
        rw [hbl.2.2.1]; exact h1
      · show (backwardUpdate env net1 y la lz).2.1.length = _
        rw [hbl.2.1]; exact h1
      · show (backwardUpdate env net1 y la lz).2.2.2.length = _
        rw [hbl.2.2.2]; exact h1
      · intro i hi
        have hiw : i < net1.weights.length := by rw [h1]; exact hi
        obtain ⟨hg1, hg2, hg3, hg4⟩ := backwardUpdate_getD env net1 y la lz i hiw
        obtain ⟨hw5, hb5, hv5, hvb5⟩ := h5 i hi
        have hull := updateLayer_lengths net1.config.learningRate
          net1.config.momentum (net1.layerInputs.getD i [])
          (net1.weights.getD i []) (net1.vWeights.getD i [])
          (net1.biases.getD i []) (net1.vBiases.getD i [])
          ((backDeltas ((getActivation env net1.config.hiddenActivation).derivative)
            net1.weights net1.layerZ net1.layerA (net1.weights.length - 1)
            [[2 * (la.getD 0 0 - y) *
              (getActivation env net1.config.outputActivation).derivative
                (lz.getD 0 0)]]).getD i [])
        refine ⟨⟨?_, ?_⟩, ?_, ⟨?_, ?_⟩, ?_⟩
        · show ((backwardUpdate env net1 y la lz).1.getD i []).length = _
          rw [hg1, hull.1]; exact hw5.1
        · show ∀ row ∈ (backwardUpdate env net1 y la lz).1.getD i [], _
          intro row hr
          rw [hg1] at hr
          obtain ⟨j, hj, rfl⟩ := exists_getD_of_mem [] hr
          rw [hull.1] at hj
          rw [(updateLayer_getD _ _ _ _ _ _ _ _ j hj).1,
            (updateWeightRow_lengths _ _ _ _ _ _).1]
          exact hw5.2 _ (getD_mem _ j [] hj)
        · show ((backwardUpdate env net1 y la lz).2.2.1.getD i []).length = _
          rw [hg3, hull.2.2.1]; exact hw5.1
        · show ((backwardUpdate env net1 y la lz).2.1.getD i []).length = _
          rw [hg2, hull.2.1]; exact hw5.1
        · show ∀ row ∈ (backwardUpdate env net1 y la lz).2.1.getD i [], _
          intro row hr
          rw [hg2] at hr
          obtain ⟨j, hj, rfl⟩ := exists_getD_of_mem [] hr
          rw [hull.2.1] at hj
          rw [(updateLayer_getD _ _ _ _ _ _ _ _ j hj).2.1,
            (updateWeightRow_lengths _ _ _ _ _ _).2]
          exact hw5.2 _ (getD_mem _ j [] hj)
        · show ((backwardUpdate env net1 y la lz).2.2.2.getD i []).length = _
          rw [hg4, hull.2.2.2]; exact hw5.1

theorem sampleStep_spec (env : ActivationEnv) (X Y : List ℚ)
    (net : NeuralNetwork) (acc : ℚ) (i : ℕ) (h : wellShaped net = true) :
    ∃ net2, sampleStep env X Y (net, acc) i
        = some (net2, acc + ((forward env net (X.getD i 0)).2 - Y.getD i 0) ^ 2) ∧
      backward env (forward env net (X.getD i 0)).1 (Y.getD i 0) = some net2 ∧
      wellShaped net2 = true ∧ net2.config = net.config ∧
      net2.epoch = net.epoch ∧ net2.weights.length = net.weights.length := by
  obtain ⟨h1, h2, _, _, _⟩ := wellShaped_unpack net h
  have hL : 1 ≤ net.weights.length := by
    rw [h1, archSizes_length]; omega
  have hbl : net.biases.length = net.weights.length := by rw [h1, h2]
  have hcache := forward_cache env net (X.getD i 0) hbl
  have hws1 : wellShaped (forward env net (X.getD i 0)).1 = true :=
    forward_preserves_shapes env net _ h
  have hwl : (forward env net (X.getD i 0)).1.weights = net.weights := rfl
  obtain ⟨net2, hsome⟩ := backward_some_of_cache env
    (forward env net (X.getD i 0)).1 (Y.getD i 0)
    (by rw [hwl, hcache.2.1]; omega) (by rw [hwl, hcache.1]; omega)
  obtain ⟨hs2, hcfg, hep, hlen⟩ := backward_preserves env _ net2 _ hws1 hsome
  refine ⟨net2, ?_, hsome, hs2, hcfg, hep, by rw [hlen, hwl]⟩
  simp only [sampleStep, hsome]

theorem runSamples_spec (env : ActivationEnv) (X Y : List ℚ) (idx : List ℕ) :
    ∀ (net : NeuralNetwork) (acc : ℚ), wellShaped net = true →
      ∃ netf es, runSamples env X Y net idx = some (netf, es) ∧
        List.foldlM (sampleStep env X Y) (net, acc) idx
            = some (netf, acc + es.sum) ∧
        wellShaped netf = true ∧ netf.epoch = net.epoch ∧
        netf.config = net.config ∧ es.length = idx.length := by
  induction idx with
  | nil =>
    intro net acc h
    exact ⟨net, [], rfl, by simp [List.foldlM], h, rfl, rfl, rfl⟩
  | cons i rest ih =>
    intro net acc h
    obtain ⟨net2, hstep, hsome, hs2, hcfg2, hep2, _⟩ :=
      sampleStep_spec env X Y net acc i h
    obtain ⟨netf, es, hrun, hfold, hsf, hepf, hcfgf, hesl⟩ :=
      ih net2 (acc + ((forward env net (X.getD i 0)).2 - Y.getD i 0) ^ 2) hs2
    refine ⟨netf, ((forward env net (X.getD i 0)).2 - Y.getD i 0) ^ 2 :: es,
      ?_, ?_, hsf, by rw [hepf, hep2], by rw [hcfgf, hcfg2], by simp [hesl]⟩
    · simp only [runSamples, hsome, hrun]
    · simp only [List.foldlM_cons, hstep, Option.bind_eq_bind, Option.some_bind,
        hfold, List.sum_cons]
      congr 2
      ring

/-- C8: every network state reachable through the public API (construction
followed by any sequence of forward, backward, trainEpoch, reset,
reconfigure and setter calls) satisfies the shape invariant: for every
computed layer l of the architecture [n0, ..., nL], the weight matrix has
n_l rows each of length n_{l-1}, the bias vector has length n_l, and the
momentum velocity buffers have the same shapes as their parameters. -/
theorem reachable_wellShaped (net : NeuralNetwork) (h : Reachable net) :
    wellShaped net = true := by
  induction h with
  | create cfg rm => exact init_shapes _ rm [] [] [] 0
  | fwd env net x _ ih => exact forward_preserves_shapes env net x ih
  | bwd env net net2 y _ hb ih => exact (backward_preserves env net net2 y ih hb).1
  | train env net net2 X Y r loss _ ht ih =>
    obtain ⟨netf, es, _, hfold, hsf, _, _, _⟩ :=
      runSamples_spec env X Y (shuffledIndices r X.length) net 0 ih
    simp only [trainEpoch, hfold, Option.some.injEq, Prod.mk.injEq] at ht
    obtain ⟨hn, -⟩ := ht
    rw [← hn]
    exact hsf
  | rst net rm _ _ => exact init_shapes _ rm [] [] [] 0
  | reconf net cfg rm _ _ => exact init_shapes _ rm [] [] [] 0
  | setLR net lr _ ih => exact ih
  | setM net m _ ih => exact ih

theorem reachable_wellShaped_witness :
    wellShaped (createNetwork {} rmZero) = true :=
  reachable_wellShaped _ (Reachable.create {} rmZero)

/-! ### The Fisher–Yates shuffle: structural lemmas -/

theorem swapAt_length (a : List ℕ) (i j : ℕ) : (swapAt a i j).length = a.length := by
  simp [swapAt]

theorem descRange_zero : descRange 0 = [] := rfl

theorem descRange_one : descRange 1 = [] := rfl

theorem descRange_succ (n : ℕ) (h : 1 ≤ n) : descRange (n + 1) = n :: descRange n := by
  unfold descRange
  rw [List.range_succ, List.reverse_append]
  have hne : (List.range n).reverse ≠ [] := by
    simp [← List.length_pos]
    omega
  cases hrev : (List.range n).reverse with
  | nil => exact absurd hrev hne
  | cons y ys => simp

theorem mem_descRange (n : ℕ) : ∀ i ∈ descRange n, 1 ≤ i ∧ i < n := by
  induction n with
  | zero => simp [descRange_zero]
  | succ n ih =>
    cases n with
    | zero => simp [descRange_one]
    | succ m =>
      rw [descRange_succ (m + 1) (by omega)]
      intro i hi
      rcases List.mem_cons.mp hi with rfl | hi
      · omega
      · have := ih i hi
        omega

theorem set_middle {α : Type _} (T : List α) (x v : α) (D : List α) :
    (T ++ x :: D).set T.length v = T ++ v :: D := by
  induction T with
  | nil => rfl
  | cons t T ih => simp [ih]

theorem getD_middle {α : Type _} (T : List α) (x : α) (D : List α) (d : α) :
    (T ++ x :: D).getD T.length d = x := by
  induction T with
  | nil => rfl
  | cons t T ih => simpa using ih

theorem set_getD_self (a : List ℕ) (j : ℕ) (h : j < a.length) :
    a.set j (a.getD j 0) = a := by
  induction a generalizing j with
  | nil => simp at h
  | cons x xs ih =>
    cases j with
    | zero => simp
    | succ j =>
      rw [List.getD_cons_succ]
      show x :: xs.set j (xs.getD j 0) = x :: xs
      rw [ih j (by simpa using h)]

theorem set_last_eq (a : List ℕ) (v : ℕ) (h : a ≠ []) :
    a.set (a.length - 1) v = a.dropLast ++ [v] := by
  induction a with
  | nil => simp at h
  | cons x xs ih =>
    cases xs with
    | nil => rfl
    | cons y ys =>
      have h2 := ih (by simp)
      have hlen : (x :: y :: ys).length - 1 = ((y :: ys).length - 1) + 1 := by
        simp
      rw [hlen]
      show x :: (y :: ys).set ((y :: ys).length - 1) v
          = (x :: y :: ys).dropLast ++ [v]
      rw [h2]
      rfl

theorem dropLast_append_getD (a : List ℕ) (h : a ≠ []) :
    a.dropLast ++ [a.getD (a.length - 1) 0] = a := by
  induction a with
  | nil => simp at h
  | cons x xs ih =>
    cases xs with
    | nil => rfl
    | cons y ys =>
      have h2 := ih (by simp)
      have hlen : (x :: y :: ys).length - 1 = ((y :: ys).length - 1) + 1 := by
        simp
      rw [hlen, List.getD_cons_succ]
      show x :: ((y :: ys).dropLast ++ [(y :: ys).getD ((y :: ys).length - 1) 0])
          = x :: y :: ys
      rw [h2]

theorem swapAt_last (a : List ℕ) (j : ℕ) (hne : a ≠ [])
    (hj : j ≤ a.length - 1) :
    swapAt a (a.length - 1) j
      = (a.set j (a.getD (a.length - 1) 0)).dropLast ++ [a.getD j 0] := by
  have hlen : 1 ≤ a.length := List.length_pos.mpr hne
  by_cases hjl : j = a.length - 1
  · subst hjl
    unfold swapAt
    rw [set_getD_self a _ (by omega)]
    rw [set_getD_self a _ (by omega)]
    exact (dropLast_append_getD a hne).symm
  · unfold swapAt
    rw [List.set_comm _ _ _ (by omega : a.length - 1 ≠ j)]
    have hsetne : a.set j (a.getD (a.length - 1) 0) ≠ [] := by
      rw [← List.length_pos, List.length_set]
      omega
    have hslen : (a.set j (a.getD (a.length - 1) 0)).length = a.length := by simp
    have key := set_last_eq (a.set j (a.getD (a.length - 1) 0)) (a.getD j 0) hsetne
    rw [hslen] at key
    exact key

theorem set_append_left {α : Type _} (c : List α) :
    ∀ (d : List α) (i : ℕ) (v : α), i < c.length →
    (c ++ d).set i v = c.set i v ++ d := by
  induction c with
  | nil => intro d i v h; simp at h
  | cons a c ih =>
    intro d i v h
    cases i with
    | zero => rfl
    | succ i => simp [ih d i v (by simpa using h)]

theorem swapAt_append (c : List ℕ) (x : ℕ) (i j : ℕ) (hi : i < c.length)
    (hj : j < c.length) :
    swapAt (c ++ [x]) i j = swapAt c i j ++ [x] := by
  unfold swapAt
  rw [List.getD_append _ _ _ _ hj, List.getD_append _ _ _ _ hi,
    set_append_left c [x] i _ hi,
    set_append_left _ [x] j _ (by simp [hj])]

theorem foldl_swap_append (x : ℕ) (rf : ℕ → ℕ) (idx : List ℕ) :
    ∀ (c : List ℕ), (∀ i ∈ idx, i < c.length ∧ rf i < c.length) →
    idx.foldl (fun acc i => swapAt acc i (rf i)) (c ++ [x])
      = idx.foldl (fun acc i => swapAt acc i (rf i)) c ++ [x] := by
  induction idx with
  | nil => intro c _; rfl
  | cons i rest ih =>
    intro c h
    have hi := h i (by simp)
    simp only [List.foldl_cons]
    rw [swapAt_append c x i (rf i) hi.1 hi.2]
    exact ih (swapAt c i (rf i)) (fun k hk => by
      rw [swapAt_length]
      exact h k (by simp [hk]))

theorem foldl_swap_eq_fyRec (n : ℕ) : ∀ (a : List ℕ) (rf : ℕ → ℕ),
    a.length = n → (∀ i, 1 ≤ i → i < n → rf i ≤ i) →
    (descRange n).foldl (fun acc i => swapAt acc i (rf i)) a
      = fyRec a ((descRange n).map rf) := by
  induction n with
  | zero => intro a rf hl hb; simp [descRange_zero, fyRec]
  | succ n ih =>
    intro a rf hl hb
    cases n with
    | zero => simp [descRange_one, fyRec]
    | succ m =>
      rw [descRange_succ (m + 1) (by omega)]
      simp only [List.foldl_cons, List.map_cons, fyRec]
      have hane : a ≠ [] := by
        intro hc
        rw [hc] at hl
        simp at hl
      have hrf : rf (m + 1) ≤ m + 1 := hb (m + 1) (by omega) (by omega)
      have hlast : a.length - 1 = m + 1 := by omega
      have hswap : swapAt a (m + 1) (rf (m + 1))
          = (a.set (rf (m + 1)) (a.getD (a.length - 1) 0)).dropLast
              ++ [a.getD (rf (m + 1)) 0] := by
        have h := swapAt_last a (rf (m + 1)) hane (by omega)
        rw [show swapAt a (a.length - 1) (rf (m + 1))
            = swapAt a (m + 1) (rf (m + 1)) from by rw [hlast]] at h
        exact h
      rw [hswap]
      have hplen : ((a.set (rf (m + 1)) (a.getD (a.length - 1) 0)).dropLast).length
          = m + 1 := by
        simp [hl]
      rw [foldl_swap_append _ rf _ _ (fun i hi => by
        obtain ⟨h1, h2⟩ := mem_descRange (m + 1) i hi
        rw [hplen]
        exact ⟨h2, lt_of_le_of_lt (hb i h1 (by omega)) h2⟩)]
      rw [ih _ rf hplen (fun i h1 h2 => hb i h1 (by omega))]

theorem fyRec_length : ∀ (js a : List ℕ), validDraws a.length js = true →
    (fyRec a js).length = a.length := by
  intro js
  induction js with
  | nil => intro a _; rfl
  | cons j js ih =>
    intro a hv
    simp only [validDraws, Bool.and_eq_true, decide_eq_true_eq] at hv
    obtain ⟨⟨hn, hj⟩, hv2⟩ := hv
    have hplen : ((a.set j (a.getD (a.length - 1) 0)).dropLast).length
        = a.length - 1 := by simp
    simp only [fyRec, List.length_append, List.length_cons, List.length_nil]
    rw [ih _ (by rw [hplen]; exact hv2), hplen]
    omega

/-- The one-step decomposition used by fyRec reassembles to a permutation of
the original list. -/
theorem prefix_perm (a : List ℕ) (j : ℕ) (hj : j < a.length) :
    List.Perm ((a.set j (a.getD (a.length - 1) 0)).dropLast ++ [a.getD j 0]) a := by
  have hane : a ≠ [] := by
    intro hc
    rw [hc] at hj
    simp at hj
  by_cases hjl : j = a.length - 1
  · subst hjl
    rw [set_getD_self a _ hj]
    rw [dropLast_append_getD a hane]
  · have hjlt : j < a.length - 1 := by
      have := List.length_pos.mpr hane
      omega
    have hdecomp : a = a.take j ++ a.getD j 0 :: a.drop (j + 1) := by
      rw [List.getD_eq_getElem _ _ hj]
      rw [← List.drop_eq_getElem_cons hj]
      exact (List.take_append_drop j a).symm
    have htlen : (a.take j).length = j := by
      rw [List.length_take]
      omega
    have hdne : a.drop (j + 1) ≠ [] := by
      rw [← List.length_pos, List.length_drop]
      omega
    set w := a.getD (a.length - 1) 0 with hw
    set z := a.getD j 0 with hz
    set T := a.take j with hT
    set D := a.drop (j + 1) with hD
    have hlenTD : a.length = T.length + 1 + D.length := by
      conv_lhs => rw [hdecomp]
      simp only [List.length_append, List.length_cons]
      omega
    have hDpos : 1 ≤ D.length := List.length_pos.mpr hdne
    have hset : a.set j w = T ++ w :: D := by
      conv_lhs => rw [hdecomp, ← htlen]
      exact set_middle T z w D
    have hwD : w = D.getD (D.length - 1) 0 := by
      rw [hw]
      conv_lhs => rw [hdecomp]
      simp only [List.length_append, List.length_cons]
      rw [List.getD_append_right _ _ _ _ (by omega)]
      have hidx : T.length + (D.length + 1) - 1 - T.length = (D.length - 1) + 1 := by
        omega
      rw [hidx, List.getD_cons_succ]
    have hDsplit : D.dropLast ++ [w] = D := by
      rw [hwD]
      exact dropLast_append_getD D hdne
    have hdrop : (T ++ w :: D).dropLast = T ++ w :: D.dropLast := by
      have h1 : T ++ w :: D = (T ++ w :: D.dropLast) ++ [w] := by
        conv_lhs => rw [← hDsplit]
        simp
      rw [h1, List.dropLast_concat]
    rw [hset, hdrop]
    conv_rhs => rw [hdecomp, ← hDsplit]
    rw [List.append_assoc]
    refine List.Perm.append_left T ?_
    exact (List.perm_append_singleton z (w :: D.dropLast)).trans
      (List.Perm.cons z (List.perm_append_singleton w D.dropLast).symm)

theorem fyRec_perm : ∀ (js a : List ℕ), validDraws a.length js = true →
    List.Perm (fyRec a js) a := by
  intro js
  induction js with
  | nil => intro a _; exact List.Perm.refl a
  | cons j js ih =>
    intro a hv
    simp only [validDraws, Bool.and_eq_true, decide_eq_true_eq] at hv
    obtain ⟨⟨hn2, hj⟩, hv2⟩ := hv
    have hplen : ((a.set j (a.getD (a.length - 1) 0)).dropLast).length
        = a.length - 1 := by simp
    have hperm := ih _ (by rw [hplen]; exact hv2)
    show List.Perm (fyRec a (j :: js)) a
    simp only [fyRec]
    exact (hperm.append_right _).trans (prefix_perm a j hj)

theorem fyRec_inj : ∀ (js a js' : List ℕ), a.Nodup →
    validDraws a.length js = true → validDraws a.length js' = true →
    fyRec a js = fyRec a js' → js = js' := by
  intro js
  induction js with
  | nil =>
    intro a js' _ hv hv' _
    cases js' with
    | nil => rfl
    | cons j' t' =>
      exfalso
      simp only [validDraws, Bool.and_eq_true, decide_eq_true_eq] at hv hv'
      omega
  | cons j js ih =>
    intro a js' hnd hv hv' heq
    cases js' with
    | nil =>
      exfalso
      simp only [validDraws, Bool.and_eq_true, decide_eq_true_eq] at hv hv'
      omega
    | cons j' js2 =>
      simp only [validDraws, Bool.and_eq_true, decide_eq_true_eq] at hv hv'
      obtain ⟨⟨hn2, hj⟩, hv2⟩ := hv
      obtain ⟨⟨hn2x, hj'⟩, hv2x⟩ := hv'
      simp only [fyRec] at heq
      have hplen : ((a.set j (a.getD (a.length - 1) 0)).dropLast).length
          = a.length - 1 := by simp
      have hplen2 : ((a.set j' (a.getD (a.length - 1) 0)).dropLast).length
          = a.length - 1 := by simp
      have hflen : (fyRec ((a.set j (a.getD (a.length - 1) 0)).dropLast) js).length
          = (fyRec ((a.set j' (a.getD (a.length - 1) 0)).dropLast) js2).length := by
        rw [fyRec_length js _ (by rw [hplen]; exact hv2),
          fyRec_length js2 _ (by rw [hplen2]; exact hv2x), hplen, hplen2]
      obtain ⟨heq1, heq2⟩ := List.append_inj heq hflen
      have hvals : a.getD j 0 = a.getD j' 0 := by simpa using heq2
      have hjj : j = j' := by
        rw [List.getD_eq_getElem _ _ hj, List.getD_eq_getElem _ _ hj'] at hvals
        exact hnd.getElem_inj_iff.mp hvals
      subst hjj
      have hnd2 : ((a.set j (a.getD (a.length - 1) 0)).dropLast).Nodup :=
        (((prefix_perm a j hj).symm.nodup) hnd).of_append_left
      rw [ih _ js2 hnd2 (by rw [hplen]; exact hv2) (by rw [hplen]; exact hv2x) heq1]

theorem fyRec_surj (n : ℕ) : ∀ (a l : List ℕ), a.length = n → List.Perm l a →
    ∃ js, validDraws n js = true ∧ fyRec a js = l := by
  induction n with
  | zero =>
    intro a l ha hl
    obtain rfl : a = [] := List.length_eq_zero.mp ha
    obtain rfl : l = [] := hl.eq_nil
    exact ⟨[], by simp [validDraws], rfl⟩
  | succ n ih =>
    intro a l ha hl
    cases n with
    | zero =>
      obtain rfl : l = a := by
        cases a with
        | nil => simp at ha
        | cons x xs =>
          obtain rfl : xs = [] := by
            simp only [List.length_cons] at ha
            exact List.length_eq_zero.mp (by omega)
          exact List.perm_singleton.mp hl
      exact ⟨[], by simp [validDraws], rfl⟩
    | succ m =>
      have hlne : l ≠ [] := by
        intro hc
        subst hc
        have := hl.length_eq
        rw [ha] at this
        simp at this
      have hl_split := dropLast_append_getD l hlne
      have hxmem : l.getD (l.length - 1) 0 ∈ l := by
        have h := List.mem_append_right l.dropLast
          (List.mem_singleton.mpr rfl :
            l.getD (l.length - 1) 0 ∈ [l.getD (l.length - 1) 0])
        rw [hl_split] at h
        exact h
      have hxa : l.getD (l.length - 1) 0 ∈ a := hl.mem_iff.mp hxmem
      obtain ⟨j, hj, hja⟩ := exists_getD_of_mem 0 hxa
      have hpp := prefix_perm a j hj
      rw [hja] at hpp
      have hla : List.Perm l ((l.dropLast) ++ [l.getD (l.length - 1) 0]) := by
        rw [hl_split]
      have h1 : List.Perm
          ((a.set j (a.getD (a.length - 1) 0)).dropLast ++ [l.getD (l.length - 1) 0])
          (l.dropLast ++ [l.getD (l.length - 1) 0]) :=
        hpp.trans (hl.symm.trans hla)
      have h2 := (List.perm_append_singleton _ _).symm.trans
        (h1.trans (List.perm_append_singleton _ _))
      have hperm2 := h2.cons_inv
      have hplen : ((a.set j (a.getD (a.length - 1) 0)).dropLast).length = m + 1 := by
        simp [ha]
      obtain ⟨js, hjs, hfy⟩ := ih _ _ hplen hperm2.symm
      refine ⟨j :: js, ?_, ?_⟩
      · simp only [validDraws, Bool.and_eq_true, decide_eq_true_eq]
        refine ⟨⟨by omega, by omega⟩, ?_⟩
        show validDraws (m + 2 - 1) js = true
        exact hjs
      · simp only [fyRec]
        rw [hfy, hja]
        exact hl_split

theorem drawAt_le (r : ℕ → ℚ) (i : ℕ) (h0 : 0 ≤ r i) (h1 : r i < 1) :
    drawAt r i ≤ i := by
  unfold drawAt
  have hpos : (0 : ℚ) < (i : ℚ) + 1 := by positivity
  have hlt : r i * ((i : ℚ) + 1) < (i : ℚ) + 1 := by
    calc r i * ((i : ℚ) + 1) < 1 * ((i : ℚ) + 1) := mul_lt_mul_of_pos_right h1 hpos
      _ = (i : ℚ) + 1 := one_mul _
  have hfl : ⌊r i * ((i : ℚ) + 1)⌋ < (i : ℤ) + 1 := by
    rw [Int.floor_lt]
    push_cast
    exact hlt
  exact Int.toNat_le.mpr (by omega)

theorem drawsOf_valid (r : ℕ → ℚ) (hr : ∀ i, 0 ≤ r i ∧ r i < 1) :
    ∀ n, validDraws n (drawsOf r n) = true := by
  intro n
  induction n with
  | zero => simp [drawsOf, descRange_zero, validDraws]
  | succ n ih =>
    cases n with
    | zero => simp [drawsOf, descRange_one, validDraws]
    | succ m =>
      unfold drawsOf
      rw [descRange_succ (m + 1) (by omega)]
      simp only [List.map_cons, validDraws, Bool.and_eq_true, decide_eq_true_eq]
      refine ⟨⟨by omega, ?_⟩, ?_⟩
      · have := drawAt_le r (m + 1) (hr (m + 1)).1 (hr (m + 1)).2
        omega
      · show validDraws (m + 2 - 1) ((descRange (m + 1)).map (drawAt r)) = true
        exact ih

theorem shuffledIndices_eq (r : ℕ → ℚ) (n : ℕ)
    (hr : ∀ i, 0 ≤ r i ∧ r i < 1) :
    shuffledIndices r n = fyRec (List.range n) (drawsOf r n) := by
  unfold shuffledIndices drawsOf
  exact foldl_swap_eq_fyRec n (List.range n) (drawAt r) (List.length_range n)
    (fun i _ _ => drawAt_le r i (hr i).1 (hr i).2)

theorem shuffledIndices_perm (r : ℕ → ℚ) (n : ℕ)
    (hr : ∀ i, 0 ≤ r i ∧ r i < 1) :
    List.Perm (shuffledIndices r n) (List.range n) := by
  rw [shuffledIndices_eq r n hr]
  exact fyRec_perm _ _ (by rw [List.length_range]; exact drawsOf_valid r hr n)

theorem shuffledIndices_length (r : ℕ → ℚ) (n : ℕ) :
    (shuffledIndices r n).length = n := by
  unfold shuffledIndices
  have hgen : ∀ (idx : List ℕ) (a : List ℕ),
      (idx.foldl (fun acc i => swapAt acc i (drawAt r i)) a).length = a.length := by
    intro idx
    induction idx with
    | nil => intro a; rfl
    | cons i rest ih =>
      intro a
      rw [List.foldl_cons, ih, swapAt_length]
  rw [hgen, List.length_range]

theorem fyRec_bijOn (n : ℕ) :
    Set.BijOn (fyRec (List.range n)) {js | validDraws n js = true}
      {l | List.Perm l (List.range n)} := by
  refine ⟨?_, ?_, ?_⟩
  · intro js hjs
    exact fyRec_perm js (List.range n) (by rw [List.length_range]; exact hjs)
  · intro js hjs js2 hjs2 heq
    exact fyRec_inj js (List.range n) js2 (List.nodup_range n)
      (by rw [List.length_range]; exact hjs)
      (by rw [List.length_range]; exact hjs2) heq
  · intro l hl
    obtain ⟨js, hv, hfy⟩ := fyRec_surj n (List.range n) l (List.length_range n) hl
    exact ⟨js, hv, hfy⟩

/-- C3 amended: the main engine's trainEpoch draws a fresh Fisher–Yates
shuffle of the index list each call and processes the samples in that order;
the order is a permutation of 0..n-1, and the map from valid draw vectors to
orders is a bijection onto the permutations of 0..n-1, so uniform
independent draws induce the uniform distribution over permutations.  The
worker's ManualNetwork.trainEpoch, by contrast, consumes no randomness and
processes samples in the fixed input order (see the counterexample). -/
theorem trainEpoch_shuffle_uniform (r : ℕ → ℚ) (n : ℕ)
    (hr : ∀ i, 0 ≤ r i ∧ r i < 1) :
    shuffledIndices r n = fyRec (List.range n) (drawsOf r n) ∧
    validDraws n (drawsOf r n) = true ∧
    List.Perm (shuffledIndices r n) (List.range n) ∧
    Set.BijOn (fyRec (List.range n)) {js | validDraws n js = true}
      {l | List.Perm l (List.range n)} ∧
    (∀ env (net : NeuralNetwork) (X Y : List ℚ), n = X.length →
      wellShaped net = true →
      ∃ netf es,
        runSamples env X Y net (shuffledIndices r n) = some (netf, es) ∧
        trainEpoch env net X Y r
          = some ({ netf with epoch := netf.epoch + 1 },
              es.sum / (X.length : ℚ))) := by
  refine ⟨shuffledIndices_eq r n hr, drawsOf_valid r hr n,
    shuffledIndices_perm r n hr, fyRec_bijOn n, ?_⟩
  intro env net X Y hn hs
  subst hn
  obtain ⟨netf, es, hrun, hfold, _, _, _, _⟩ :=
    runSamples_spec env X Y (shuffledIndices r X.length) net 0 hs
  refine ⟨netf, es, hrun, ?_⟩
  simp only [trainEpoch, hfold, zero_add]

theorem trainEpoch_shuffle_uniform_witness :
    List.Perm (shuffledIndices (fun _ => (0 : ℚ)) 2) (List.range 2) :=
  (trainEpoch_shuffle_uniform (fun _ => (0 : ℚ)) 2
    (fun _ => ⟨le_refl 0, by norm_num⟩)).2.2.1

/-- C4: trainEpoch increments the epoch counter exactly once per call, only
after all samples are processed (the per-sample steps leave it unchanged),
and returns the mean over all samples of the squared error of the
during-training prediction, each made before that sample's own parameter
update; one squared error per sample, over an index order that is a
permutation of 0..n-1. -/
theorem trainEpoch_mean_loss (env : ActivationEnv) (net : NeuralNetwork)
    (X Y : List ℚ) (r : ℕ → ℚ) (hX : X ≠ []) (hs : wellShaped net = true)
    (hr : ∀ i, 0 ≤ r i ∧ r i < 1) :
    ∃ netf es,
      runSamples env X Y net (shuffledIndices r X.length) = some (netf, es) ∧
      netf.epoch = net.epoch ∧
      trainEpoch env net X Y r
        = some ({ netf with epoch := netf.epoch + 1 },
            es.sum / (X.length : ℚ)) ∧
      ({ netf with epoch := netf.epoch + 1 } : NeuralNetwork).epoch
          = net.epoch + 1 ∧
      es.length = X.length ∧
      List.Perm (shuffledIndices r X.length) (List.range X.length) := by
  obtain ⟨netf, es, hrun, hfold, _, hep, _, hlen⟩ :=
    runSamples_spec env X Y (shuffledIndices r X.length) net 0 hs
  refine ⟨netf, es, hrun, hep, ?_, by simp [hep], ?_,
    shuffledIndices_perm r _ hr⟩
  · simp only [trainEpoch, hfold, zero_add]
  · rw [hlen, shuffledIndices_length]

theorem trainEpoch_mean_loss_witness :
    List.Perm (shuffledIndices (fun _ => (0 : ℚ)) 1) (List.range 1) := by
  obtain ⟨netf, es, h1, h2, h3, h4, h5, h6⟩ := trainEpoch_mean_loss envId
    (createNetwork { hiddenLayers := some [1] } rmZero) [1] [0] (fun _ => 0)
    (by simp) (by decide) (fun _ => by norm_num)
  exact h6

/-- C3 counterexample: the worker's trainEpoch consumes no randomness and
processes the samples in the fixed input order 0, 1, ..., n-1: its result
is exactly that of processing in order [0, 1], which differs from the
result of processing the same two samples in order [1, 0], so its sample
order is never a freshly drawn random permutation. -/
theorem worker_fixed_order_cx :
    (workerTrainEpoch envId mnetCx [1, 2] [0, 0]).1
      = { (workerProcess envId [1, 2] [0, 0] mnetCx [0, 1]).1 with
          epoch := (workerProcess envId [1, 2] [0, 0] mnetCx [0, 1]).1.epoch + 1 } ∧
    (workerProcess envId [1, 2] [0, 0] mnetCx [0, 1]).1.weights
      ≠ (workerProcess envId [1, 2] [0, 0] mnetCx [1, 0]).1.weights := by
  constructor
  · rfl
  · norm_num [workerProcess, workerSampleStep, workerForward, workerForwardLayers,
      workerPre, rowDot, workerActivation, workerDeltas, colSum,
      workerUpdateLayers, workerUpdateLayer, workerUpdateRow, mnetCx, envId,
      idImpl, linear, linearDerivative, (show List.range 1 = [0] from rfl)]

/-! ### Linear networks compute the affine matrix chain -/

theorem rowDot_eq_dotRef : ∀ (row vec : List ℚ), row.length = vec.length →
    rowDot row vec = dotRef row vec := by
  intro row
  induction row with
  | nil => intro vec h; simp [rowDot, dotRef]
  | cons w ws ih =>
    intro vec h
    cases vec with
    | nil => simp at h
    | cons v vs =>
      show w * (v :: vs).headD 0 + rowDot ws (v :: vs).tail = _
      simp only [List.headD_cons, List.tail_cons, dotRef, List.zipWith_cons_cons,
        List.sum_cons]
      rw [ih vs (by simpa using h)]
      rfl

theorem matVecMul_eq_ref (m : List (List ℚ)) (v : List ℚ)
    (h : ∀ row ∈ m, row.length = v.length) :
    matVecMul m v = matVecRef m v :=
  List.map_congr_left (fun row hr => rowDot_eq_dotRef row v (h row hr))

theorem addVec_eq_zipWith : ∀ (v b : List ℚ), v.length = b.length →
    addVec v b = List.zipWith (fun a c => a + c) v b := by
  intro v
  induction v with
  | nil => intro b h; simp [addVec]
  | cons x xs ih =>
    intro b h
    cases b with
    | nil => simp at h
    | cons y ys =>
      show (x + (y :: ys).headD 0) :: addVec xs (y :: ys).tail = _
      simp only [List.headD_cons, List.tail_cons, List.zipWith_cons_cons]
      rw [ih ys (by simpa using h)]

theorem map_linear_id (z : List ℚ) : z.map linear = z := by
  induction z with
  | nil => rfl
  | cons x xs ih => simp only [List.map_cons, ih]; rfl

theorem forwardLayers_linear (env : ActivationEnv) (cfg : NetworkConfig)
    (hh : cfg.hiddenActivation = ActivationFunction.linear)
    (ho : cfg.outputActivation = ActivationFunction.linear) :
    ∀ (ps : List (List (List ℚ) × List ℚ)) (cur : List ℚ), ps ≠ [] →
      chainShape ps cur.length = true →
      (forwardLayers env cfg ps cur).2.2.getD (ps.length - 1) []
        = affineChain ps cur := by
  intro ps
  induction ps with
  | nil => intro cur h _; exact absurd rfl h
  | cons p rest ih =>
    intro cur _ hcs
    obtain ⟨w, b⟩ := p
    simp only [chainShape, Bool.and_eq_true, beq_iff_eq, List.all_eq_true] at hcs
    obtain ⟨⟨hrows, hb⟩, hrest⟩ := hcs
    have hrows2 : ∀ row ∈ w, row.length = cur.length := fun row hr => by
      have := hrows row hr
      exact beq_iff_eq.mp (by simpa using this)
    have hz : addVec (matVecMul w cur) b
        = List.zipWith (fun a c => a + c) (matVecRef w cur) b := by
      rw [matVecMul_eq_ref w cur hrows2]
      exact addVec_eq_zipWith _ _ (by simp [matVecRef, hb])
    cases hre : rest.isEmpty with
    | true =>
      obtain rfl : rest = [] := List.isEmpty_iff.mp hre
      show ((addVec (matVecMul w cur) b).map
          (getActivation env cfg.outputActivation).fn) = affineChain [(w, b)] cur
      rw [ho]
      show (addVec (matVecMul w cur) b).map linear = affineChain [(w, b)] cur
      rw [map_linear_id, hz]
      rfl
    | false =>
      have hne : rest ≠ [] := by simpa [List.isEmpty_iff] using hre
      have hstep : (forwardLayers env cfg ((w, b) :: rest) cur).2.2
          = ((addVec (matVecMul w cur) b).map
              (getActivation env (if rest.isEmpty then cfg.outputActivation
                else cfg.hiddenActivation)).fn)
            :: (forwardLayers env cfg rest
              ((addVec (matVecMul w cur) b).map
                (getActivation env (if rest.isEmpty then cfg.outputActivation
                  else cfg.hiddenActivation)).fn)).2.2 := rfl
      rw [hstep]
      simp only [hre, Bool.false_eq_true, if_false]
      rw [hh]
      have hlen2 : ((w, b) :: rest).length - 1 = (rest.length - 1) + 1 := by
        have := List.length_pos.mpr hne
        simp only [List.length_cons]
        omega
      rw [hlen2, List.getD_cons_succ]
      show (forwardLayers env cfg rest
          ((addVec (matVecMul w cur) b).map linear)).2.2.getD (rest.length - 1) []
        = affineChain ((w, b) :: rest) cur
      rw [map_linear_id]
      rw [ih (addVec (matVecMul w cur) b) hne (by
        rw [hz]
        have hlz : (List.zipWith (fun a c => a + c) (matVecRef w cur) b).length
            = w.length := by
          simp [matVecRef, hb]
        rw [hlz]
        exact hrest)]
      show affineChain rest (addVec (matVecMul w cur) b)
          = affineChain ((w, b) :: rest) cur
      rw [hz]
      rfl

theorem chainShape_of_indexed :
    ∀ (ps : List (List (List ℚ) × List ℚ)) (arch : List ℕ),
    arch.length = ps.length + 1 →
    (∀ i, i < ps.length →
      (ps.getD i ([], [])).1.length = arch.getD (i + 1) 0 ∧
      (∀ row ∈ (ps.getD i ([], [])).1, row.length = arch.getD i 0) ∧
      (ps.getD i ([], [])).2.length = arch.getD (i + 1) 0) →
    chainShape ps (arch.getD 0 0) = true := by
  intro ps
  induction ps with
  | nil => intro arch _ _; rfl
  | cons p rest ih =>
    intro arch hlen hfacts
    obtain ⟨w, b⟩ := p
    simp only [List.length_cons] at hlen
    have h0 := hfacts 0 (by simp)
    simp only [List.getD_cons_zero] at h0
    simp only [chainShape, Bool.and_eq_true, beq_iff_eq, List.all_eq_true]
    refine ⟨⟨fun row hr => ?_, ?_⟩, ?_⟩
    · exact h0.2.1 row hr
    · rw [h0.2.2, h0.1]
    · have hrec := ih arch.tail (by rw [List.length_tail]; omega) (fun i hi => by
        have hf := hfacts (i + 1) (by simp only [List.length_cons]; omega)
        simp only [List.getD_cons_succ] at hf
        simp only [getD_tail]
        exact hf)
      rw [getD_tail] at hrec
      rw [← h0.1] at hrec
      exact hrec

/-- C5: on a network whose hidden and output activations are both the
identity (linear) kind, forward(x) equals the exact affine matrix chain
W_L·(...(W_2·(W_1·x + b_1) + b_2)...) + b_L, at every depth. -/
theorem forward_linear_chain (env : ActivationEnv) (net : NeuralNetwork) (x : ℚ)
    (hh : net.config.hiddenActivation = ActivationFunction.linear)
    (ho : net.config.outputActivation = ActivationFunction.linear)
    (hs : wellShaped net = true) :
    (forward env net x).2
      = (affineChain (net.weights.zip net.biases) [x]).getD 0 0 := by
  obtain ⟨h1, h2, _, _, h5⟩ := wellShaped_unpack net hs
  have hb : net.biases.length = net.weights.length := by rw [h1, h2]
  have hzl : (net.weights.zip net.biases).length = net.weights.length :=
    zip_length_of_eq _ _ hb
  have hL : 1 ≤ net.weights.length := by
    rw [h1, archSizes_length]
    omega
  have hne : net.weights.zip net.biases ≠ [] := by
    rw [← List.length_pos, hzl]
    omega
  have harchlen : (archSizes net.config).length
      = (net.weights.zip net.biases).length + 1 := by
    rw [hzl, h1, archSizes_length]
    omega
  have hfacts : ∀ i, i < (net.weights.zip net.biases).length →
      ((net.weights.zip net.biases).getD i ([], [])).1.length
          = (archSizes net.config).getD (i + 1) 0 ∧
      (∀ row ∈ ((net.weights.zip net.biases).getD i ([], [])).1,
          row.length = (archSizes net.config).getD i 0) ∧
      ((net.weights.zip net.biases).getD i ([], [])).2.length
          = (archSizes net.config).getD (i + 1) 0 := by
    intro i hi
    have hi2 : i < net.weights.length := by rw [← hzl]; exact hi
    have hz := zip_getD net.weights net.biases i [] [] hi2 (by rw [hb]; exact hi2)
    have hfa := h5 i (by rw [← h1]; exact hi2)
    rw [hz]
    exact ⟨hfa.1.1, hfa.1.2, hfa.2.1⟩
  have hcs := chainShape_of_indexed (net.weights.zip net.biases)
    (archSizes net.config) harchlen hfacts
  have harch0 : (archSizes net.config).getD 0 0 = 1 := rfl
  rw [harch0] at hcs
  have hlens := forwardLayers_lengths env net.config (net.weights.zip net.biases) [x]
  show ((forwardLayers env net.config (net.weights.zip net.biases) [x]).2.2.getD
      ((forwardLayers env net.config (net.weights.zip net.biases) [x]).2.2.length
        - 1) []).getD 0 0 = _
  rw [hlens.2.1]
  rw [forwardLayers_linear env net.config hh ho _ [x] hne hcs]

theorem forward_linear_chain_witness :
    ((forward envId (createNetwork cfgLin1 rmZero) 3).2
      = (affineChain ((createNetwork cfgLin1 rmZero).weights.zip
          (createNetwork cfgLin1 rmZero).biases) [3]).getD 0 0) ∧
    ((forward envId (createNetwork cfgLin2 rmZero) 3).2
      = (affineChain ((createNetwork cfgLin2 rmZero).weights.zip
          (createNetwork cfgLin2 rmZero).biases) [3]).getD 0 0) ∧
    ((forward envId (createNetwork cfgLin4 rmZero) 3).2
      = (affineChain ((createNetwork cfgLin4 rmZero).weights.zip
          (createNetwork cfgLin4 rmZero).biases) [3]).getD 0 0) :=
  ⟨forward_linear_chain envId _ 3 rfl rfl (by decide),
   forward_linear_chain envId _ 3 rfl rfl (by decide),
   forward_linear_chain envId _ 3 rfl rfl (by decide)⟩

/-! ### The backward delta loop computes the spec's transpose products -/

theorem addRowScaled_length : ∀ (acc row : List ℚ) (c : ℚ),
    (addRowScaled acc row c).length = acc.length := by
  intro acc
  induction acc with
  | nil => intro row c; cases row <;> rfl
  | cons a as ih =>
    intro row c
    cases row with
    | nil => rfl
    | cons w ws => simp [addRowScaled, ih]

theorem addRowScaled_getD : ∀ (acc row : List ℚ) (c : ℚ),
    row.length ≤ acc.length → ∀ k,
    (addRowScaled acc row c).getD k 0 = acc.getD k 0 + row.getD k 0 * c := by
  intro acc
  induction acc with
  | nil =>
    intro row c h k
    cases row with
    | nil => simp [addRowScaled]
    | cons w ws => simp at h
  | cons a as ih =>
    intro row c h k
    cases row with
    | nil => simp [addRowScaled]
    | cons w ws =>
      cases k with
      | zero => simp [addRowScaled]
      | succ k =>
        simp only [addRowScaled, List.getD_cons_succ]
        exact ih ws c (by simpa using h) k

theorem accumBack_length : ∀ (rows : List (List ℚ)) (dz acc : List ℚ),
    (accumBack rows dz acc).length = acc.length := by
  intro rows
  induction rows with
  | nil => intro dz acc; rfl
  | cons row rows ih =>
    intro dz acc
    rw [show accumBack (row :: rows) dz acc
        = accumBack rows dz.tail (addRowScaled acc row (dz.headD 0)) from rfl]
    rw [ih, addRowScaled_length]

theorem accumBack_getD : ∀ (rows : List (List ℚ)) (dz acc : List ℚ),
    (∀ row ∈ rows, row.length ≤ acc.length) → ∀ k,
    (accumBack rows dz acc).getD k 0 = acc.getD k 0 + colSum k rows dz := by
  intro rows
  induction rows with
  | nil => intro dz acc _ k; simp [accumBack, colSum]
  | cons row rows ih =>
    intro dz acc h k
    rw [show accumBack (row :: rows) dz acc
        = accumBack rows dz.tail (addRowScaled acc row (dz.headD 0)) from rfl]
    rw [ih dz.tail _ (fun r hr => by
      rw [addRowScaled_length]
      exact h r (by simp [hr]))]
    rw [addRowScaled_getD acc row _ (h row (by simp)) k]
    show acc.getD k 0 + row.getD k 0 * dz.headD 0 + colSum k rows dz.tail
        = acc.getD k 0 + (row.getD k 0 * dz.headD 0 + colSum k rows dz.tail)
    ring

theorem accumBack_eq_transMul (rows : List (List ℚ)) (dz : List ℚ) (len : ℕ)
    (h : ∀ row ∈ rows, row.length ≤ len) :
    accumBack rows dz (List.replicate len 0) = transMulSpec rows dz len := by
  have hlen : (accumBack rows dz (List.replicate len 0)).length = len := by
    rw [accumBack_length, List.length_replicate]
  have hlen2 : (transMulSpec rows dz len).length = len := by
    simp [transMulSpec]
  apply List.ext_getElem (by rw [hlen, hlen2])
  intro k h1 h2
  rw [← List.getD_eq_getElem _ 0, ← List.getD_eq_getElem _ 0]
  rw [accumBack_getD rows dz _ (fun r hr => by
    rw [List.length_replicate]; exact h r hr) k]
  rw [hlen] at h1
  rw [getD_replicate_lt _ _ _ _ h1]
  rw [show transMulSpec rows dz len = (List.range len).map (fun k => colSum k rows dz)
    from rfl]
  rw [getD_map_lt _ _ _ _ 0 (by rw [List.length_range]; exact h1),
    getD_range_lt _ _ _ h1]
  ring

theorem mulDeriv_spec (d : ℚ → ℚ) : ∀ (vs z : List ℚ),
    mulDeriv d vs z
      = (List.range vs.length).map (fun j => vs.getD j 0 * d (z.getD j 0)) := by
  intro vs
  induction vs with
  | nil => intro z; rfl
  | cons v vs ih =>
    intro z
    rw [show mulDeriv d (v :: vs) z
        = v * d (z.headD 0) :: mulDeriv d vs z.tail from rfl]
    rw [ih z.tail]
    simp only [List.length_cons]
    rw [List.range_succ_eq_map, List.map_cons, List.map_map]
    congr 1
    · rw [headD_eq_getD, List.getD_cons_zero]
    · apply List.map_congr_left
      intro j _
      show vs.getD j 0 * d (z.tail.getD j 0)
          = (v :: vs).getD (j + 1) 0 * d (z.getD (j + 1) 0)
      rw [List.getD_cons_succ, getD_tail]

theorem backDeltas_eq_spec (d : ℚ → ℚ) (weights : List (List (List ℚ)))
    (layerZ layerA : List (List ℚ)) :
    ∀ (fuel : ℕ) (acc : List (List ℚ)),
      (∀ i, i < fuel → ∀ row ∈ weights.getD (i + 1) [],
        row.length ≤ (layerA.getD i []).length) →
      backDeltas d weights layerZ layerA fuel acc
        = specDeltasAux d weights layerZ layerA fuel acc := by
  intro fuel
  induction fuel with
  | zero => intro acc _; rfl
  | succ i ih =>
    intro acc hrows
    simp only [backDeltas, specDeltasAux]
    rw [accumBack_eq_transMul _ _ _ (hrows i (by omega))]
    rw [mulDeriv_spec]
    have hlen : (transMulSpec (weights.getD (i + 1) []) (acc.headD [])
        (layerA.getD i []).length).length = (layerA.getD i []).length := by
      simp [transMulSpec]
    rw [hlen]
    exact ih _ (fun k hk => hrows k (by omega))

theorem get?_eq_some_getD {α : Type _} (l : List α) (n : ℕ) (d : α)
    (h : n < l.length) : l.get? n = some (l.getD n d) := by
  rw [List.get?_eq_getElem?, List.getElem?_eq_getElem h, List.getD_eq_getElem _ _ h]

/-- C1: after forward(x), backward(y) updates every parameter through the
momentum rule with exactly the spec's gradients: for weight W_l[j,k] the
gradient δ_l[j]·a_{l-1}[k] and for bias b_l[j] the gradient δ_l[j], where δ
is the delta recurrence δ_L = 2(y_pred - y_true)·σ_out'(z_L),
δ_l = (W_{l+1}^T δ_{l+1}) ⊙ σ_hid'(z_l), all derivatives evaluated at the
cached pre-activations z (never at the post-activations a). -/
theorem backward_gradients (env : ActivationEnv) (net : NeuralNetwork)
    (x yTrue : ℚ) (hs : wellShaped net = true) :
    ∃ net2, backward env (forward env net x).1 yTrue = some net2 ∧
      ∀ i j k, i < net.weights.length →
        j < (net.weights.getD i []).length →
        k < ((net.weights.getD i []).getD j []).length →
        (((net2.vWeights.getD i []).getD j []).getD k 0
            = net.config.momentum
                * (((net.vWeights.getD i []).getD j []).getD k 0)
              + net.config.learningRate
                * (((specDeltas env (forward env net x).1 yTrue).getD i []).getD j 0
                  * (if i = 0 then [x]
                      else (forward env net x).1.layerA.getD (i - 1) []).getD k 0)) ∧
        (((net2.weights.getD i []).getD j []).getD k 0
            = ((net.weights.getD i []).getD j []).getD k 0
              - ((net2.vWeights.getD i []).getD j []).getD k 0) ∧
        ((net2.vBiases.getD i []).getD j 0
            = net.config.momentum * ((net.vBiases.getD i []).getD j 0)
              + net.config.learningRate
                * ((specDeltas env (forward env net x).1 yTrue).getD i []).getD j 0) ∧
        ((net2.biases.getD i []).getD j 0
            = (net.biases.getD i []).getD j 0
              - (net2.vBiases.getD i []).getD j 0) := by
  obtain ⟨h1, h2, h3, h4, h5⟩ := wellShaped_unpack net hs
  have hL : 1 ≤ net.weights.length := by
    rw [h1, archSizes_length]
    omega
  have hb : net.biases.length = net.weights.length := by rw [h1, h2]
  have hcache := forward_cache env net x hb
  have hwl : (forward env net x).1.weights = net.weights := rfl
  have hA : (forward env net x).1.layerA.get?
        ((forward env net x).1.weights.length - 1)
      = some ((forward env net x).1.layerA.getD
          ((forward env net x).1.weights.length - 1) []) :=
    get?_eq_some_getD _ _ _ (by rw [hwl, hcache.2.1]; omega)
  have hZ : (forward env net x).1.layerZ.get?
        ((forward env net x).1.weights.length - 1)
      = some ((forward env net x).1.layerZ.getD
          ((forward env net x).1.weights.length - 1) []) :=
    get?_eq_some_getD _ _ _ (by rw [hwl, hcache.1]; omega)
  have hbw := backward_unfold env (forward env net x).1 yTrue _ _ hA hZ
  refine ⟨_, hbw, ?_⟩
  intro i j k hi hj hk
  have hrows : ∀ t, t < (forward env net x).1.weights.length - 1 →
      ∀ row ∈ (forward env net x).1.weights.getD (t + 1) [],
        row.length ≤ ((forward env net x).1.layerA.getD t []).length := by
    intro t ht row hrow
    rw [hwl] at ht
    have hrow2 : row.length = (archSizes net.config).getD (t + 1) 0 :=
      (h5 (t + 1) (by omega)).1.2 row hrow
    have hlen2 : ((forward env net x).1.layerA.getD t []).length
        = (net.weights.getD t []).length := (hcache.2.2.1 t (by omega)).2
    have hwt : (net.weights.getD t []).length
        = (archSizes net.config).getD (t + 1) 0 := (h5 t (by omega)).1.1
    omega
  have hdz : backDeltas
      ((getActivation env (forward env net x).1.config.hiddenActivation).derivative)
      (forward env net x).1.weights (forward env net x).1.layerZ
      (forward env net x).1.layerA ((forward env net x).1.weights.length - 1)
      [[2 * (((forward env net x).1.layerA.getD
            ((forward env net x).1.weights.length - 1) []).getD 0 0 - yTrue) *
        (getActivation env (forward env net x).1.config.outputActivation).derivative
          (((forward env net x).1.layerZ.getD
            ((forward env net x).1.weights.length - 1) []).getD 0 0)]]
      = specDeltas env (forward env net x).1 yTrue := by
    rw [backDeltas_eq_spec _ _ _ _ _ _ hrows]
    rfl
  have hiw : i < (forward env net x).1.weights.length := by rw [hwl]; exact hi
  obtain ⟨hg1, hg2, hg3, hg4⟩ := backwardUpdate_getD env (forward env net x).1
    yTrue ((forward env net x).1.layerA.getD
      ((forward env net x).1.weights.length - 1) [])
    ((forward env net x).1.layerZ.getD
      ((forward env net x).1.weights.length - 1) []) i hiw
  rw [hdz] at hg1 hg2 hg3 hg4
  have hinput : (forward env net x).1.layerInputs.getD i []
      = (if i = 0 then [x]
          else (forward env net x).1.layerA.getD (i - 1) []) := by
    cases i with
    | zero => simpa using hcache.2.2.2.1
    | succ t =>
      rw [if_neg (Nat.succ_ne_zero t)]
      exact hcache.2.2.2.2 t (by omega)
  have hcfg : (forward env net x).1.config = net.config := rfl
  have hvw : (forward env net x).1.vWeights = net.vWeights := rfl
  have hvb : (forward env net x).1.vBiases = net.vBiases := rfl
  have hbi : (forward env net x).1.biases = net.biases := rfl
  rw [hinput, hcfg, hvw, hvb, hbi, hwl] at hg1 hg2 hg3 hg4
  obtain ⟨hu1, hu2, hu3, hu4⟩ := updateLayer_getD net.config.learningRate
    net.config.momentum
    (if i = 0 then [x] else (forward env net x).1.layerA.getD (i - 1) [])
    (net.weights.getD i []) (net.vWeights.getD i []) (net.biases.getD i [])
    (net.vBiases.getD i [])
    ((specDeltas env (forward env net x).1 yTrue).getD i []) j hj
  obtain ⟨hw1, hw2⟩ := updateWeightRow_getD net.config.learningRate
    net.config.momentum
    (((specDeltas env (forward env net x).1 yTrue).getD i []).getD j 0)
    ((net.weights.getD i []).getD j []) ((net.vWeights.getD i []).getD j [])
    (if i = 0 then [x] else (forward env net x).1.layerA.getD (i - 1) []) k hk
  refine ⟨?_, ?_, ?_, ?_⟩
  · show (((backwardUpdate env (forward env net x).1 yTrue
        ((forward env net x).1.layerA.getD
          (net.weights.length - 1) [])
        ((forward env net x).1.layerZ.getD
          (net.weights.length - 1) [])).2.1.getD i []).getD
          j []).getD k 0 = _
    rw [hg2, hu2, hw1]
  · show (((backwardUpdate env (forward env net x).1 yTrue
        ((forward env net x).1.layerA.getD
          (net.weights.length - 1) [])
        ((forward env net x).1.layerZ.getD
          (net.weights.length - 1) [])).1.getD i []).getD
          j []).getD k 0 = _
    rw [hg1, hu1, hw2]
    show _ = ((net.weights.getD i []).getD j []).getD k 0
      - (((backwardUpdate env (forward env net x).1 yTrue
        ((forward env net x).1.layerA.getD
          (net.weights.length - 1) [])
        ((forward env net x).1.layerZ.getD
          (net.weights.length - 1) [])).2.1.getD i []).getD
          j []).getD k 0
    rw [hg2, hu2, hw1]
  · show ((backwardUpdate env (forward env net x).1 yTrue
        ((forward env net x).1.layerA.getD
          (net.weights.length - 1) [])
        ((forward env net x).1.layerZ.getD
          (net.weights.length - 1) [])).2.2.2.getD i []).getD
          j 0 = _
    rw [hg4, hu3]
  · show ((backwardUpdate env (forward env net x).1 yTrue
        ((forward env net x).1.layerA.getD
          (net.weights.length - 1) [])
        ((forward env net x).1.layerZ.getD
          (net.weights.length - 1) [])).2.2.1.getD i []).getD
          j 0 = _
    rw [hg3, hu4]
    show _ = (net.biases.getD i []).getD j 0
      - ((backwardUpdate env (forward env net x).1 yTrue
        ((forward env net x).1.layerA.getD
          (net.weights.length - 1) [])
        ((forward env net x).1.layerZ.getD
          (net.weights.length - 1) [])).2.2.2.getD i []).getD
          j 0
    rw [hg4, hu3]

theorem backward_gradients_witness :
    wellShaped (createNetwork cfgLin2 rmZero) = true ∧
    ∃ net2, backward envId
        (forward envId (createNetwork cfgLin2 rmZero) 1).1 0 = some net2 :=
  ⟨by decide, by
    obtain ⟨net2, hsome, _⟩ :=
      backward_gradients envId (createNetwork cfgLin2 rmZero) 1 0 (by decide)
    exact ⟨net2, hsome⟩⟩

/-- C1: counterexample for the worker implementation. On the concrete
all-linear worker network (weights 1, biases 0, lr 1, momentum 0), one
sample step at input 1 with target 0 updates the output weight by the
gradient `(y_pred - y_true)·σ_out'(z_L)·a`, i.e. plain SGD with gradient
`(1 - 0)·1·1 = 1`, giving weight 0 — not by the claimed gradient
`2·(y_pred - y_true)·σ_out'(z_L)·a = 2`, which would give weight -1: the
worker's output delta omits the factor 2. -/
theorem worker_output_delta_cx :
    (((workerSampleStep envId mnetCx 1 0).1.weights.getD 1 []).getD 0 []).getD 0 0
      = sgdStep mnetCx.config.learningRate 1
          (((1 : ℚ) - 0) * linearDerivative 1 * 1) ∧
    (((workerSampleStep envId mnetCx 1 0).1.weights.getD 1 []).getD 0 []).getD 0 0
      ≠ sgdStep mnetCx.config.learningRate 1
          (2 * ((1 : ℚ) - 0) * linearDerivative 1 * 1) := by
  constructor <;>
  norm_num [workerSampleStep, workerForward, workerForwardLayers, workerPre,
    rowDot, workerActivation, workerDeltas, colSum, workerUpdateLayers,
    workerUpdateLayer, workerUpdateRow, mnetCx, envId, idImpl, linear,
    linearDerivative, sgdStep, (show List.range 1 = [0] from rfl)]
